import Mathlib

/-!
Verification of the adaptive-knowledge-graph backend against its
natural-language specification.  The Python data model and the operations
under test are shallowly embedded: Python dicts become insertion-ordered
association lists, floating-point scores become rationals, fallible calls
return Except or Option, and external services (Neo4j, spaCy, OpenSearch,
the regex engine) become oracle parameters supplying their observable
results.  Definitions follow the Python source of the repository; each
claim is settled by one theorem below the definitions.
-/

namespace AKG

/-- Python str.lower applied character by character; the texts involved are
ASCII, where this agrees with the Python builtin. -/
def lowerStr (s : String) : String := ⟨s.data.map Char.toLower⟩

/-- Containment of a contiguous run of characters, scanning left to right;
decides the Python membership test of one string inside another. -/
def strContains (hay needle : List Char) : Bool :=
  match hay with
  | [] => needle.isEmpty
  | c :: t => needle.isPrefixOf (c :: t) || strContains t needle

/-- The Python substring test, needle in hay. -/
def substrOf (needle hay : String) : Bool := strContains hay.data needle.data

/-- Assigning a key into a Python dict keeps the position of an existing key
and appends a fresh key at the end; this is the effect on the key order. -/
def addKey (ks : List String) (x : String) : List String :=
  if x ∈ ks then ks else ks ++ [x]

/-- Key order of a Python dict whose keys were inserted in the order given:
the first occurrences, in order of first appearance. -/
def pyDictOrder (l : List String) : List String := l.foldl addKey []

theorem addKey_of_mem {ks : List String} {x : String} (h : x ∈ ks) :
    addKey ks x = ks := if_pos h

theorem addKey_of_not_mem {ks : List String} {x : String} (h : x ∉ ks) :
    addKey ks x = ks ++ [x] := if_neg h

theorem mem_addKey {ks : List String} {x y : String} :
    y ∈ addKey ks x ↔ y ∈ ks ∨ y = x := by
  by_cases h : x ∈ ks
  · rw [addKey_of_mem h]
    constructor
    · exact Or.inl
    · rintro (h1 | rfl)
      · exact h1
      · exact h
  · rw [addKey_of_not_mem h]; simp

theorem mem_foldl_addKey :
    ∀ (l ks : List String) (y : String), y ∈ l.foldl addKey ks ↔ y ∈ ks ∨ y ∈ l
  | [], ks, y => by simp
  | x :: t, ks, y => by
    rw [List.foldl_cons, mem_foldl_addKey t (addKey ks x) y, mem_addKey]
    constructor
    · rintro ((h | rfl) | h)
      · exact Or.inl h
      · exact Or.inr (by simp)
      · exact Or.inr (List.mem_cons_of_mem _ h)
    · rintro (h | h)
      · exact Or.inl (Or.inl h)
      · rcases List.mem_cons.mp h with rfl | h
        · exact Or.inl (Or.inr rfl)
        · exact Or.inr h

theorem mem_pyDictOrder {l : List String} {y : String} :
    y ∈ pyDictOrder l ↔ y ∈ l := by
  rw [pyDictOrder, mem_foldl_addKey]; simp

theorem nodup_addKey {ks : List String} {x : String} (h : ks.Nodup) :
    (addKey ks x).Nodup := by
  unfold addKey
  by_cases hx : x ∈ ks <;> simp [hx, List.nodup_append, h]

theorem nodup_foldl_addKey :
    ∀ (l ks : List String), ks.Nodup → (l.foldl addKey ks).Nodup
  | [], ks, h => h
  | x :: t, ks, h => by
    rw [List.foldl_cons]
    exact nodup_foldl_addKey t (addKey ks x) (nodup_addKey h)

theorem pyDictOrder_nodup (l : List String) : (pyDictOrder l).Nodup :=
  nodup_foldl_addKey l [] List.nodup_nil

theorem foldl_addKey_eq_append_of_nodup :
    ∀ (l ks : List String), (ks ++ l).Nodup → l.foldl addKey ks = ks ++ l
  | [], ks, _ => by simp
  | x :: t, ks, h => by
    have hx : x ∉ ks := by
      intro hmem
      have := (List.nodup_append.mp h).2.2
      exact this hmem (by simp)
    rw [List.foldl_cons, addKey_of_not_mem hx,
      foldl_addKey_eq_append_of_nodup t (ks ++ [x]) (by simpa using h)]
    simp

theorem pyDictOrder_eq_self {l : List String} (h : l.Nodup) : pyDictOrder l = l := by
  simpa using foldl_addKey_eq_append_of_nodup l [] (by simpa using h)

theorem foldl_addKey_exists_suffix :
    ∀ (l ks : List String), ∃ s, l.foldl addKey ks = ks ++ s
  | [], ks => ⟨[], by simp⟩
  | x :: t, ks => by
    rw [List.foldl_cons]
    by_cases hx : x ∈ ks
    · rw [addKey_of_mem hx]
      exact foldl_addKey_exists_suffix t ks
    · rw [addKey_of_not_mem hx]
      rcases foldl_addKey_exists_suffix t (ks ++ [x]) with ⟨s, hs⟩
      exact ⟨x :: s, by rw [hs]; simp⟩

theorem indexOf_foldl_addKey_lt {l ks : List String} {a b : String}
    (ha : a ∈ ks) (hb : b ∉ ks) :
    List.indexOf a (l.foldl addKey ks) < List.indexOf b (l.foldl addKey ks) := by
  rcases foldl_addKey_exists_suffix l ks with ⟨s, hs⟩
  rw [hs, List.indexOf_append_of_mem ha, List.indexOf_append_of_not_mem hb]
  calc List.indexOf a ks < ks.length := List.indexOf_lt_length.mpr ha
    _ ≤ ks.length + List.indexOf b s := Nat.le_add_right _ _

/-- In the key order of a Python dict the keys stand in order of first
appearance in the insertion sequence. -/
theorem foldl_addKey_respects_first :
    ∀ (l ks : List String) (a b : String), a ∉ ks → b ∉ ks → a ≠ b →
    b ∈ l → List.indexOf a l < List.indexOf b l →
    List.indexOf a (l.foldl addKey ks) < List.indexOf b (l.foldl addKey ks)
  | [], _, _, _, _, _, _, hb, _ => absurd hb (List.not_mem_nil _)
  | x :: t, ks, a, b, hna, hnb, hab, hbmem, hidx => by
    rw [List.foldl_cons]
    by_cases hxa : x = a
    · have haks : a ∈ addKey ks x := by rw [mem_addKey]; exact Or.inr hxa.symm
      have hbks : b ∉ addKey ks x := by
        rw [mem_addKey]
        rintro (h | h)
        · exact hnb h
        · exact hab (hxa ▸ h.symm)
      exact indexOf_foldl_addKey_lt haks hbks
    · by_cases hxb : x = b
      · have h0 : List.indexOf b (x :: t) = 0 := by
          rw [hxb]; exact List.indexOf_cons_self _ _
        have h1 : List.indexOf a (x :: t) = (List.indexOf a t).succ :=
          List.indexOf_cons_ne _ hxa
        rw [h0, h1] at hidx
        exact absurd hidx (Nat.not_lt_zero _)
      · have h1 : List.indexOf a (x :: t) = (List.indexOf a t).succ :=
          List.indexOf_cons_ne _ hxa
        have h2 : List.indexOf b (x :: t) = (List.indexOf b t).succ :=
          List.indexOf_cons_ne _ hxb
        rw [h1, h2, Nat.succ_lt_succ_iff] at hidx
        have hbt : b ∈ t := by
          rcases List.mem_cons.mp hbmem with h | h
          · exact absurd h.symm hxb
          · exact h
        have hna2 : a ∉ addKey ks x := by
          rw [mem_addKey]
          rintro (h | h)
          · exact hna h
          · exact hxa h.symm
        have hnb2 : b ∉ addKey ks x := by
          rw [mem_addKey]
          rintro (h | h)
          · exact hnb h
          · exact hxb h.symm
        exact foldl_addKey_respects_first t (addKey ks x) a b hna2 hnb2 hab hbt hidx

/-- Stable insertion into a descending-sorted list: the element passes every
earlier entry with strictly greater key and stops before the first entry whose
key is not greater, matching where the stable Python sort with reverse set
leaves it. -/
def insDescBy (key : α → ℚ) (x : α) : List α → List α
  | [] => [x]
  | y :: ys => if key y ≤ key x then x :: y :: ys else y :: insDescBy key x ys

/-- Stable descending sort by key; the result the stable Python sorted with
reverse set produces is uniquely determined and equals this insertion sort. -/
def sortDescBy (key : α → ℚ) : List α → List α
  | [] => []
  | x :: xs => insDescBy key x (sortDescBy key xs)

theorem insDescBy_cons (key : α → ℚ) (x y : α) (ys : List α) :
    insDescBy key x (y :: ys) =
      if key y ≤ key x then x :: y :: ys else y :: insDescBy key x ys := rfl

theorem insDescBy_perm (key : α → ℚ) (x : α) :
    ∀ l : List α, List.Perm (insDescBy key x l) (x :: l)
  | [] => List.Perm.refl _
  | y :: ys => by
    unfold insDescBy
    by_cases h : key y ≤ key x
    · rw [if_pos h]
    · rw [if_neg h]
      exact ((insDescBy_perm key x ys).cons y).trans (List.Perm.swap x y ys)

theorem sortDescBy_perm (key : α → ℚ) : ∀ l : List α, List.Perm (sortDescBy key l) l
  | [] => List.Perm.refl _
  | x :: xs =>
    (insDescBy_perm key x (sortDescBy key xs)).trans ((sortDescBy_perm key xs).cons x)

theorem mem_insDescBy {key : α → ℚ} {x a : α} {l : List α} :
    a ∈ insDescBy key x l ↔ a = x ∨ a ∈ l := by
  rw [(insDescBy_perm key x l).mem_iff, List.mem_cons]

theorem insDescBy_eq_cons {key : α → ℚ} {x : α} :
    ∀ {l : List α}, (∀ a ∈ l, key a ≤ key x) → insDescBy key x l = x :: l
  | [], _ => rfl
  | y :: _, h => by unfold insDescBy; rw [if_pos (h y (by simp))]

theorem sorted_insDescBy {key : α → ℚ} {x : α} :
    ∀ {l : List α}, List.Pairwise (fun a b => key b ≤ key a) l →
    List.Pairwise (fun a b => key b ≤ key a) (insDescBy key x l)
  | [], _ => by simp [insDescBy]
  | y :: ys, h => by
    rcases List.pairwise_cons.mp h with ⟨hy, hys⟩
    unfold insDescBy
    by_cases hk : key y ≤ key x
    · rw [if_pos hk]
      refine List.pairwise_cons.mpr ⟨?_, h⟩
      intro a ha
      rcases List.mem_cons.mp ha with rfl | ha
      · exact hk
      · exact le_trans (hy a ha) hk
    · rw [if_neg hk]
      refine List.pairwise_cons.mpr ⟨?_, sorted_insDescBy hys⟩
      intro a ha
      rcases mem_insDescBy.mp ha with rfl | ha
      · exact le_of_lt (lt_of_not_le hk)
      · exact hy a ha

theorem sorted_sortDescBy (key : α → ℚ) :
    ∀ l : List α, List.Pairwise (fun a b => key b ≤ key a) (sortDescBy key l)
  | [] => by simp [sortDescBy]
  | x :: xs => sorted_insDescBy (sorted_sortDescBy key xs)

theorem filter_insDescBy {key : α → ℚ} (p : α → Bool) (x : α) :
    ∀ {l : List α}, List.Pairwise (fun a b => key b ≤ key a) l →
    (insDescBy key x l).filter p =
      if p x then insDescBy key x (l.filter p) else l.filter p
  | [], _ => by
    cases hp : p x <;> simp [insDescBy, hp]
  | y :: ys, h => by
    rcases List.pairwise_cons.mp h with ⟨hy, hys⟩
    rw [insDescBy_cons]
    by_cases hk : key y ≤ key x
    · rw [if_pos hk]
      cases hp : p x with
      | false => simp [hp, List.filter_cons]
      | true =>
        cases hpy : p y with
        | true => simp [hp, hpy, List.filter_cons, insDescBy_cons, hk]
        | false =>
          have hcons : insDescBy key x (List.filter p ys) = x :: List.filter p ys :=
            insDescBy_eq_cons fun a ha =>
              le_trans (hy a (List.mem_of_mem_filter ha)) hk
          simp [hp, hpy, List.filter_cons, hcons]
    · rw [if_neg hk]
      have ih := filter_insDescBy p x hys
      cases hp : p x with
      | true =>
        cases hpy : p y with
        | true =>
          simp [List.filter_cons, hpy, ih, hp, insDescBy_cons, hk]
        | false =>
          simp [List.filter_cons, hpy, ih, hp]
      | false =>
        cases hpy : p y with
        | true => simp [List.filter_cons, hpy, ih, hp]
        | false => simp [List.filter_cons, hpy, ih, hp]

theorem filter_sortDescBy (key : α → ℚ) (p : α → Bool) :
    ∀ l : List α, (sortDescBy key l).filter p = sortDescBy key (l.filter p)
  | [] => rfl
  | x :: xs => by
    rw [sortDescBy, filter_insDescBy p x (sorted_sortDescBy key xs),
      filter_sortDescBy key p xs, List.filter_cons]
    cases hp : p x <;> simp [hp, sortDescBy]

theorem sortDescBy_of_const {key : α → ℚ} {q : ℚ} :
    ∀ {l : List α}, (∀ a ∈ l, key a = q) → sortDescBy key l = l
  | [], _ => rfl
  | x :: xs, h => by
    rw [sortDescBy, sortDescBy_of_const (fun a ha => h a (List.mem_cons_of_mem x ha)),
      insDescBy_eq_cons]
    intro a ha
    rw [h a (List.mem_cons_of_mem x ha), h x (by simp)]

/-- Python max over a list of rationals, 0 for the empty list (Python would
raise there; callers guard against it). -/
def maxQ : List ℚ → ℚ
  | [] => 0
  | x :: xs => xs.foldl max x

theorem foldl_max_mem : ∀ (xs : List ℚ) (b : ℚ), xs.foldl max b = b ∨ xs.foldl max b ∈ xs
  | [], b => Or.inl rfl
  | x :: xs, b => by
    rw [List.foldl_cons]
    rcases foldl_max_mem xs (max b x) with h | h
    · rcases max_choice b x with hm | hm
      · exact Or.inl (by rw [h, hm])
      · exact Or.inr (by rw [h, hm]; simp)
    · exact Or.inr (by simp [h])

theorem le_foldl_max_init : ∀ (xs : List ℚ) (b : ℚ), b ≤ xs.foldl max b
  | [], _ => le_refl _
  | x :: xs, b =>
    le_trans (le_max_left b x) (le_foldl_max_init xs (max b x))

theorem le_foldl_max_mem {a : ℚ} : ∀ {xs : List ℚ} (b : ℚ), a ∈ xs → a ≤ xs.foldl max b
  | [], _, h => absurd h (List.not_mem_nil _)
  | x :: xs, b, h => by
    rw [List.foldl_cons]
    rcases List.mem_cons.mp h with rfl | h
    · exact le_trans (le_max_right b a) (le_foldl_max_init xs _)
    · exact le_foldl_max_mem (max b x) h

theorem maxQ_mem : ∀ {l : List ℚ}, l ≠ [] → maxQ l ∈ l
  | [], h => absurd rfl h
  | x :: xs, _ => by
    rw [maxQ]
    rcases foldl_max_mem xs x with h | h
    · simp [h]
    · simp [h]

theorem le_maxQ {a : ℚ} {l : List ℚ} (h : a ∈ l) : a ≤ maxQ l := by
  match l with
  | [] => exact absurd h (List.not_mem_nil _)
  | x :: xs =>
    rw [maxQ]
    rcases List.mem_cons.mp h with rfl | h
    · exact le_foldl_max_init xs a
    · exact le_foldl_max_mem x h

theorem foldl_max_div {m : ℚ} (hm : 0 ≤ m) :
    ∀ (xs : List ℚ) (b : ℚ), (xs.map (fun a => a / m)).foldl max (b / m) = xs.foldl max b / m
  | [], _ => rfl
  | x :: xs, b => by
    rw [List.map_cons, List.foldl_cons, List.foldl_cons, max_div_div_right hm,
      foldl_max_div hm xs (max b x)]

theorem maxQ_map_div {m : ℚ} (hm : 0 ≤ m) (l : List ℚ) :
    maxQ (l.map (fun a => a / m)) = maxQ l / m := by
  match l with
  | [] => simp [maxQ]
  | x :: xs => rw [List.map_cons, maxQ, maxQ, foldl_max_div hm]

theorem maxQ_const {c : ℚ} : ∀ {l : List ℚ}, l ≠ [] → (∀ a ∈ l, a = c) → maxQ l = c := by
  intro l hne hall
  have h1 := maxQ_mem hne
  exact hall _ h1

theorem pyDictOrder_toFinset (l : List String) : (pyDictOrder l).toFinset = l.toFinset := by
  ext a
  simp [List.mem_toFinset, mem_pyDictOrder]

/-- Relationship types of the knowledge graph schema, from app.kg.schema. -/
inductive RelationshipType
  | PREREQ
  | RELATED
  | COVERS
  | PART_OF
  | MENTIONS
deriving DecidableEq, Repr

/-- Concept node of the knowledge graph, from app.kg.schema.ConceptNode. -/
structure ConceptNode where
  name : String
  type : String := "Concept"
  definition : Option String := none
  key_term : Bool := false
  frequency : Nat := 1
  importance_score : ℚ := 0
  source_modules : List String := []
  aliases : List String := []
deriving DecidableEq, Repr

/-- Relationship between nodes, from app.kg.schema.Relationship. -/
structure Relationship where
  source : String
  target : String
  type : RelationshipType
  weight : ℚ := 1
  confidence : ℚ := 1
  evidence : Option String := none
deriving DecidableEq, Repr

/-- The in-memory knowledge graph, from app.kg.schema.KnowledgeGraph.  The
Python class also carries section and module node dicts; they take no part in
the operations verified here and are elided.  The concept dict is modelled as
an insertion-ordered association list, matching Python dict semantics. -/
structure KnowledgeGraph where
  concepts : List (String × ConceptNode) := []
  relationships : List Relationship := []
deriving DecidableEq, Repr

/-- Effect of KnowledgeGraph.add_concept on the concept dict: an existing node
of the same name gains the incoming frequency and the incoming source modules
(the module list goes through a Python set; first-occurrence order stands in
for its unspecified iteration order, and only the underlying set is relied on
below); a new name is appended at the end. -/
def addConceptEntries : List (String × ConceptNode) → ConceptNode → List (String × ConceptNode)
  | [], c => [(c.name, c)]
  | (k, e) :: rest, c =>
    if k = c.name then
      (k, { e with frequency := e.frequency + c.frequency,
                   source_modules := pyDictOrder (e.source_modules ++ c.source_modules) }) :: rest
    else (k, e) :: addConceptEntries rest c

/-- KnowledgeGraph.add_concept. -/
def add_concept (kg : KnowledgeGraph) (c : ConceptNode) : KnowledgeGraph :=
  { kg with concepts := addConceptEntries kg.concepts c }

/-- Effect of KnowledgeGraph.add_relationship on the relationship list: the
first existing edge with the same source, target and type takes the maximum of
the two weights; otherwise the new edge is appended. -/
def addRelAux : List Relationship → Relationship → List Relationship
  | [], r => [r]
  | s :: rest, r =>
    if s.source = r.source ∧ s.target = r.target ∧ s.type = r.type then
      { s with weight := max s.weight r.weight } :: rest
    else s :: addRelAux rest r

/-- KnowledgeGraph.add_relationship. -/
def add_relationship (kg : KnowledgeGraph) (r : Relationship) : KnowledgeGraph :=
  { kg with relationships := addRelAux kg.relationships r }

/-- Whether an edge carries the given source, target and type triple. -/
def tripleMatches (r : Relationship) (s t : String) (ty : RelationshipType) : Bool :=
  decide (r.source = s ∧ r.target = t ∧ r.type = ty)

/-- Number of edges carrying the given triple. -/
def matchCount (rels : List Relationship) (s t : String) (ty : RelationshipType) : Nat :=
  (rels.filter (fun r => tripleMatches r s t ty)).length

theorem tripleMatches_weight_update (x : Relationship) (w : ℚ) (s t : String)
    (ty : RelationshipType) :
    tripleMatches { x with weight := w } s t ty = tripleMatches x s t ty := rfl

theorem addRelAux_of_no_match {rels : List Relationship} {r : Relationship}
    (h : ∀ s ∈ rels, tripleMatches s r.source r.target r.type = false) :
    addRelAux rels r = rels ++ [r] := by
  induction rels with
  | nil => rfl
  | cons x rest ih =>
    have hx : ¬(x.source = r.source ∧ x.target = r.target ∧ x.type = r.type) := by
      have := h x (by simp)
      simpa [tripleMatches] using this
    rw [addRelAux, if_neg hx, ih fun s hs => h s (List.mem_cons_of_mem _ hs)]
    simp

theorem addRelAux_append_match {rels : List Relationship} {r x : Relationship}
    (h : ∀ s ∈ rels, tripleMatches s r.source r.target r.type = false)
    (hx : tripleMatches x r.source r.target r.type = true) :
    addRelAux (rels ++ [x]) r = rels ++ [{ x with weight := max x.weight r.weight }] := by
  induction rels with
  | nil =>
    have hx2 : x.source = r.source ∧ x.target = r.target ∧ x.type = r.type := by
      simpa [tripleMatches] using hx
    simp [addRelAux, hx2]
  | cons y rest ih =>
    have hy : ¬(y.source = r.source ∧ y.target = r.target ∧ y.type = r.type) := by
      have := h y (by simp)
      simpa [tripleMatches] using this
    rw [List.cons_append, addRelAux, if_neg hy,
      ih fun s hs => h s (List.mem_cons_of_mem _ hs)]
    simp

theorem matchCount_cons (x : Relationship) (rest : List Relationship) (s t : String)
    (ty : RelationshipType) :
    matchCount (x :: rest) s t ty =
      (if tripleMatches x s t ty then 1 else 0) + matchCount rest s t ty := by
  unfold matchCount
  rw [List.filter_cons]
  cases h : tripleMatches x s t ty <;> simp [h, Nat.add_comm]

theorem matchCount_update_cons (x : Relationship) (w : ℚ) (rest : List Relationship)
    (s t : String) (ty : RelationshipType) :
    matchCount ({ x with weight := w } :: rest) s t ty = matchCount (x :: rest) s t ty := by
  rw [matchCount_cons, matchCount_cons, tripleMatches_weight_update]

theorem matchCount_addRelAux_ne {r : Relationship} {s t : String} {ty : RelationshipType}
    (hr : tripleMatches r s t ty = false) :
    ∀ l : List Relationship, matchCount (addRelAux l r) s t ty = matchCount l s t ty := by
  intro l
  induction l with
  | nil =>
    show matchCount [r] s t ty = matchCount [] s t ty
    rw [matchCount_cons, hr]
    simp
  | cons x rest ih =>
    rw [addRelAux]
    by_cases hx : x.source = r.source ∧ x.target = r.target ∧ x.type = r.type
    · rw [if_pos hx, matchCount_update_cons]
    · rw [if_neg hx, matchCount_cons, matchCount_cons, ih]

theorem matchCount_addRelAux_le_one {s t : String} {ty : RelationshipType}
    (r : Relationship) :
    ∀ l : List Relationship, matchCount l s t ty ≤ 1 → matchCount (addRelAux l r) s t ty ≤ 1 := by
  intro l
  induction l with
  | nil =>
    intro _
    show matchCount [r] s t ty ≤ 1
    rw [matchCount_cons]
    cases h : tripleMatches r s t ty <;> simp [matchCount]
  | cons x rest ih =>
    intro hle
    rw [addRelAux]
    by_cases hx : x.source = r.source ∧ x.target = r.target ∧ x.type = r.type
    · rw [if_pos hx, matchCount_update_cons]
      exact hle
    · rw [if_neg hx, matchCount_cons]
      rw [matchCount_cons] at hle
      cases hxt : tripleMatches x s t ty with
      | false =>
        rw [hxt] at hle
        simp only [Bool.false_eq_true, if_false, Nat.zero_add] at hle ⊢
        exact ih hle
      | true =>
        rw [hxt] at hle
        have hrty : tripleMatches r s t ty = false := by
          cases hb : tripleMatches r s t ty with
          | false => rfl
          | true =>
            exfalso
            have hr : r.source = s ∧ r.target = t ∧ r.type = ty := by
              simpa [tripleMatches] using hb
            have hxt2 : x.source = s ∧ x.target = t ∧ x.type = ty := by
              simpa [tripleMatches] using hxt
            exact hx ⟨hxt2.1.trans hr.1.symm, hxt2.2.1.trans hr.2.1.symm,
              hxt2.2.2.trans hr.2.2.symm⟩
        rw [matchCount_addRelAux_ne hrty rest]
        simpa using hle

theorem addConceptEntries_of_not_mem {cs : List (String × ConceptNode)} {c : ConceptNode}
    (h : c.name ∉ cs.map Prod.fst) :
    addConceptEntries cs c = cs ++ [(c.name, c)] := by
  induction cs with
  | nil => rfl
  | cons e rest ih =>
    obtain ⟨k, v⟩ := e
    have hk : ¬(k = c.name) := by
      intro hk
      exact h (by simp [hk])
    rw [addConceptEntries, if_neg hk, ih (by intro hm; exact h (by simp [hm]))]
    simp

theorem addConceptEntries_append_of_not_mem {cs : List (String × ConceptNode)}
    {c e : ConceptNode} {n : String} (h : n ∉ cs.map Prod.fst) (hn : n = c.name) :
    addConceptEntries (cs ++ [(n, e)]) c =
      cs ++ [(n,
        { e with
          frequency := e.frequency + c.frequency
          source_modules := pyDictOrder (e.source_modules ++ c.source_modules) })] := by
  induction cs with
  | nil => simp [addConceptEntries, hn]
  | cons x rest ih =>
    obtain ⟨k, v⟩ := x
    have hk : ¬(k = c.name) := by
      intro hk
      exact h (by simp [hk, hn])
    rw [List.cons_append, addConceptEntries, if_neg hk,
      ih (by intro hm; exact h (by simp [hm]))]
    simp

theorem addConceptEntries_keys (cs : List (String × ConceptNode)) (c : ConceptNode) :
    (addConceptEntries cs c).map Prod.fst = addKey (cs.map Prod.fst) c.name := by
  induction cs with
  | nil => simp [addConceptEntries, addKey]
  | cons e rest ih =>
    obtain ⟨k, v⟩ := e
    by_cases hk : k = c.name
    · rw [addConceptEntries, if_pos hk]
      rw [addKey_of_mem (by simp [hk])]
      simp
    · rw [addConceptEntries, if_neg hk, List.map_cons, List.map_cons, ih]
      by_cases hm : c.name ∈ rest.map Prod.fst
      · rw [addKey_of_mem hm, addKey_of_mem (by simp [hm])]
      · rw [addKey_of_not_mem hm, addKey_of_not_mem (by
          intro hmem
          rcases List.mem_cons.mp hmem with hh | hh
          · exact hk hh.symm
          · exact hm hh)]
        simp

theorem addConceptEntries_nodup {cs : List (String × ConceptNode)} {c : ConceptNode}
    (h : (cs.map Prod.fst).Nodup) : ((addConceptEntries cs c).map Prod.fst).Nodup := by
  rw [addConceptEntries_keys]
  exact nodup_addKey h

/-- Claim C6 (amended): into a state whose relationship list holds no RELATED
edge from A to B, inserting (A,B,RELATED,w1) and then (A,B,RELATED,w2) leaves
exactly one such edge and its weight is max(w1,w2); and every add_relationship
call preserves the invariant of at most one edge per (source,target,type)
triple, merging instead of appending a duplicate.  The freshness condition is
necessary: on a state already holding a heavier A-B RELATED edge the final
weight is the old one, not max(w1,w2), as the counterexample shows. -/
theorem C6_add_relationship_merges_by_max
    (kg : KnowledgeGraph) (A B : String) (w1 w2 q1 q2 : ℚ) (e1 e2 : Option String)
    (hfresh : matchCount kg.relationships A B RelationshipType.RELATED = 0) :
    (matchCount (add_relationship (add_relationship kg
        ⟨A, B, RelationshipType.RELATED, w1, q1, e1⟩)
        ⟨A, B, RelationshipType.RELATED, w2, q2, e2⟩).relationships
        A B RelationshipType.RELATED = 1 ∧
     ∀ r ∈ (add_relationship (add_relationship kg
        ⟨A, B, RelationshipType.RELATED, w1, q1, e1⟩)
        ⟨A, B, RelationshipType.RELATED, w2, q2, e2⟩).relationships,
        tripleMatches r A B RelationshipType.RELATED = true → r.weight = max w1 w2) ∧
    (∀ (g : KnowledgeGraph) (r : Relationship) (s t : String) (ty : RelationshipType),
       matchCount g.relationships s t ty ≤ 1 →
       matchCount (add_relationship g r).relationships s t ty ≤ 1) := by
  have hall : ∀ s ∈ kg.relationships, tripleMatches s A B RelationshipType.RELATED = false := by
    intro s hs
    have h0 : (kg.relationships.filter
        (fun r => tripleMatches r A B RelationshipType.RELATED)).length = 0 := hfresh
    rw [List.length_eq_zero] at h0
    cases hb : tripleMatches s A B RelationshipType.RELATED with
    | false => rfl
    | true =>
      exfalso
      have : s ∈ kg.relationships.filter
          (fun r => tripleMatches r A B RelationshipType.RELATED) :=
        List.mem_filter.mpr ⟨hs, hb⟩
      rw [h0] at this
      exact List.not_mem_nil s this
  have s1 : addRelAux kg.relationships ⟨A, B, RelationshipType.RELATED, w1, q1, e1⟩ =
      kg.relationships ++ [⟨A, B, RelationshipType.RELATED, w1, q1, e1⟩] :=
    addRelAux_of_no_match hall
  have s2 : addRelAux (kg.relationships ++ [⟨A, B, RelationshipType.RELATED, w1, q1, e1⟩])
      ⟨A, B, RelationshipType.RELATED, w2, q2, e2⟩ =
      kg.relationships ++ [⟨A, B, RelationshipType.RELATED, max w1 w2, q1, e1⟩] :=
    addRelAux_append_match hall (by simp [tripleMatches])
  have hrels : (add_relationship (add_relationship kg
      ⟨A, B, RelationshipType.RELATED, w1, q1, e1⟩)
      ⟨A, B, RelationshipType.RELATED, w2, q2, e2⟩).relationships =
      kg.relationships ++ [⟨A, B, RelationshipType.RELATED, max w1 w2, q1, e1⟩] := by
    show addRelAux (addRelAux kg.relationships _) _ = _
    rw [s1, s2]
  refine ⟨⟨?_, ?_⟩, fun g r s t ty h => matchCount_addRelAux_le_one r g.relationships h⟩
  · rw [hrels]
    unfold matchCount
    rw [List.filter_append]
    have h0 : (kg.relationships.filter
        (fun r => tripleMatches r A B RelationshipType.RELATED)).length = 0 := hfresh
    rw [List.length_append, h0]
    simp [tripleMatches]
  · rw [hrels]
    intro r hr _
    rcases List.mem_append.mp hr with h | h
    · exact absurd (hall r h) (by simp_all)
    · rcases List.mem_singleton.mp h with rfl
      rfl

/-- Concrete refutation of claim C6 as frozen: it quantifies over every
KnowledgeGraph state, but on a state already holding the RELATED edge A-B with
weight 1, inserting weights 1/2 and then 3/10 leaves that edge at weight 1,
not max(1/2, 3/10). -/
theorem C6_counterexample :
    (add_relationship (add_relationship
        ⟨[], [⟨"A", "B", RelationshipType.RELATED, 1, 7/10, none⟩]⟩
        ⟨"A", "B", RelationshipType.RELATED, 1/2, 3/5, none⟩)
        ⟨"A", "B", RelationshipType.RELATED, 3/10, 3/5, none⟩).relationships =
      [⟨"A", "B", RelationshipType.RELATED, 1, 7/10, none⟩] ∧
    (1 : ℚ) ≠ max (1/2) (3/10) := by
  constructor
  · show addRelAux (addRelAux _ _) _ = _
    norm_num [addRelAux]
  · norm_num

/-- Witness for the amended claim C6 at a concrete fresh state. -/
theorem C6_witness :
    matchCount (add_relationship (add_relationship
        { concepts := [], relationships := [] }
        ⟨"A", "B", RelationshipType.RELATED, 1/2, 1, none⟩)
        ⟨"A", "B", RelationshipType.RELATED, 3/10, 1, none⟩).relationships
      "A" "B" RelationshipType.RELATED = 1 :=
  (C6_add_relationship_merges_by_max
    { concepts := [], relationships := [] } "A" "B" (1/2) (3/10) 1 1 none none rfl).1.1

/-- Claim C7 (amended): inserting two ConceptNodes of the same fresh name
yields exactly one stored node for that name, its frequency is the sum of the
two inserted frequencies and its source modules form the set union of the two
inserted lists; and add_concept never duplicates a name.  Freshness is
necessary: on a state already storing a node of that name the old frequency is
added as well, as the counterexample shows. -/
theorem C7_add_concept_merges
    (kg : KnowledgeGraph) (c1 c2 : ConceptNode)
    (hname : c2.name = c1.name) (hfresh : c1.name ∉ kg.concepts.map Prod.fst) :
    (((add_concept (add_concept kg c1) c2).concepts.filter
        (fun e => decide (e.1 = c1.name))).length = 1 ∧
     ∀ e ∈ (add_concept (add_concept kg c1) c2).concepts, e.1 = c1.name →
       e.2.frequency = c1.frequency + c2.frequency ∧
       e.2.source_modules.toFinset =
         c1.source_modules.toFinset ∪ c2.source_modules.toFinset) ∧
    (∀ (g : KnowledgeGraph) (c : ConceptNode), (g.concepts.map Prod.fst).Nodup →
       ((add_concept g c).concepts.map Prod.fst).Nodup) := by
  have s1 : addConceptEntries kg.concepts c1 = kg.concepts ++ [(c1.name, c1)] :=
    addConceptEntries_of_not_mem hfresh
  have s2 : addConceptEntries (kg.concepts ++ [(c1.name, c1)]) c2 =
      kg.concepts ++ [(c1.name,
        { c1 with
          frequency := c1.frequency + c2.frequency
          source_modules := pyDictOrder (c1.source_modules ++ c2.source_modules) })] :=
    addConceptEntries_append_of_not_mem hfresh hname.symm
  have hcs : (add_concept (add_concept kg c1) c2).concepts =
      kg.concepts ++ [(c1.name,
        { c1 with
          frequency := c1.frequency + c2.frequency
          source_modules := pyDictOrder (c1.source_modules ++ c2.source_modules) })] := by
    show addConceptEntries (addConceptEntries kg.concepts c1) c2 = _
    rw [s1, s2]
  have hnotkey : ∀ e ∈ kg.concepts, ¬(e.1 = c1.name) := by
    intro e he heq
    exact hfresh (heq ▸ List.mem_map_of_mem Prod.fst he)
  refine ⟨⟨?_, ?_⟩, fun g c h => addConceptEntries_nodup h⟩
  · rw [hcs]
    rw [List.filter_append]
    have h0 : kg.concepts.filter (fun e => decide (e.1 = c1.name)) = [] := by
      rw [List.filter_eq_nil_iff]
      intro e he
      simpa using hnotkey e he
    rw [h0]
    simp
  · rw [hcs]
    intro e he _
    rcases List.mem_append.mp he with h | h
    · exact absurd (by assumption) (hnotkey e h)
    · rcases List.mem_singleton.mp h with rfl
      refine ⟨rfl, ?_⟩
      show (pyDictOrder (c1.source_modules ++ c2.source_modules)).toFinset = _
      rw [pyDictOrder_toFinset, List.toFinset_append]

/-- Concrete refutation of claim C7 as frozen: it quantifies over every
KnowledgeGraph state, but on a state already storing the node N with
frequency 7, two insertions of N with frequencies 1 and 2 leave frequency 10,
not the claimed sum 1 + 2 of the two inserted frequencies. -/
theorem C7_counterexample :
    (add_concept (add_concept
        ⟨[("N", { name := "N", frequency := 7 })], []⟩
        { name := "N", frequency := 1 })
        { name := "N", frequency := 2 }).concepts =
      [("N", { name := "N", frequency := 10 })] ∧
    (10 : Nat) ≠ 1 + 2 := by
  constructor
  · show addConceptEntries (addConceptEntries _ _) _ = _
    simp [addConceptEntries, pyDictOrder, addKey]
  · decide

/-- Witness for the amended claim C7 at a concrete fresh state. -/
theorem C7_witness :
    (((add_concept (add_concept
        { concepts := [], relationships := [] }
        { name := "N", frequency := 1, source_modules := ["m1"] })
        { name := "N", frequency := 2, source_modules := ["m2"] }).concepts.filter
      (fun e => decide (e.1 = ConceptNode.name
        { name := "N", frequency := 1, source_modules := ["m1"] }))).length = 1) :=
  (C7_add_concept_merges { concepts := [], relationships := [] }
    { name := "N", frequency := 1, source_modules := ["m1"] }
    { name := "N", frequency := 2, source_modules := ["m2"] }
    rfl (List.not_mem_nil _)).1.1

/-- Assigning into a Python dict: an existing key keeps its position and takes
the new value, a fresh key is appended at the end. -/
def dictSet (d : List (String × String)) (k v : String) : List (String × String) :=
  match d with
  | [] => [(k, v)]
  | (k0, v0) :: rest => if k0 = k then (k0, v) :: rest else (k0, v0) :: dictSet rest k v

/-- The concept lookup of KGBuilder._extract_prereq_relationships: a dict from
lowercased concept name to original name, filled in concept-list order. -/
def buildLookup (concepts : List String) : List (String × String) :=
  concepts.foldl (fun d c => dictSet d (lowerStr c) c) []

/-- Python str.strip: leading and trailing whitespace removed. -/
def pyStrip (s : String) : String :=
  ⟨((s.data.dropWhile Char.isWhitespace).reverse.dropWhile Char.isWhitespace).reverse⟩

/-- KGBuilder._match_text_to_concept: an exact key hit wins, else the first
entry in dict order whose key is contained in the text or contains it. -/
def match_text_to_concept (txt : String) (lookup : List (String × String)) : Option String :=
  match lookup.find? (fun p => p.1 == txt) with
  | some p => some p.2
  | none => (lookup.find? (fun p => substrOf p.1 txt || substrOf txt p.1)).map Prod.snd

/-- Edge construction of KGBuilder._extract_prereq_relationships for one regex
match: the captured group is stripped and lowercased and resolved to a target
concept; the source is the first concept in dict order whose lowercased name
occurs anywhere in the text before the match start and that differs from the
target; the edge carries weight 0.8, confidence 0.6 and a bounded text snippet
as evidence.  The regex engine is external input, so the match offsets and the
captured group are taken as arguments; the theorems hold for every match it
can report. -/
def prereqEdgeOfMatch (text : String) (mStart mEnd : Nat) (group1 : String)
    (concepts : List String) : Option Relationship :=
  let lookup := buildLookup concepts
  let matchedText := lowerStr (pyStrip group1)
  match match_text_to_concept matchedText lookup with
  | none => none
  | some tgt =>
    let textBefore := lowerStr (text.take mStart)
    match lookup.find? (fun p => substrOf p.1 textBefore && p.2 != tgt) with
    | none => none
    | some p =>
      if p.2 ≠ tgt then
        some ⟨p.2, tgt, RelationshipType.PREREQ, 4/5, 3/5,
          some ((text.take (mEnd + 20)).drop (mStart - 50))⟩
      else none

theorem mem_dictSet {d : List (String × String)} {k v : String} {e : String × String}
    (h : e ∈ dictSet d k v) : e ∈ d ∨ e = (k, v) := by
  induction d with
  | nil => simpa [dictSet] using h
  | cons x rest ih =>
    obtain ⟨k0, v0⟩ := x
    rw [dictSet] at h
    by_cases hk : k0 = k
    · rw [if_pos hk] at h
      rcases List.mem_cons.mp h with rfl | hm
      · exact Or.inr (by rw [hk])
      · exact Or.inl (List.mem_cons_of_mem _ hm)
    · rw [if_neg hk] at h
      rcases List.mem_cons.mp h with rfl | hm
      · exact Or.inl (by simp)
      · rcases ih hm with hm2 | hm2
        · exact Or.inl (List.mem_cons_of_mem _ hm2)
        · exact Or.inr hm2

theorem buildLookup_key_lower (concepts : List String) :
    ∀ e ∈ buildLookup concepts, e.1 = lowerStr e.2 := by
  suffices h : ∀ (cs : List String) (d : List (String × String)),
      (∀ e ∈ d, e.1 = lowerStr e.2) →
      ∀ e ∈ cs.foldl (fun d c => dictSet d (lowerStr c) c) d, e.1 = lowerStr e.2 by
    exact h concepts [] (by simp)
  intro cs
  induction cs with
  | nil => intro d hd e he; exact hd e he
  | cons c rest ih =>
    intro d hd e he
    rw [List.foldl_cons] at he
    refine ih (dictSet d (lowerStr c) c) ?_ e he
    intro x hx
    rcases mem_dictSet hx with hm | rfl
    · exact hd x hm
    · rfl

/-- Claim C3 (amended): every PREREQ edge the pattern matcher creates has
weight 0.8 and confidence 0.6, is never a self loop, and its source is a known
concept whose lowercased name occurs in the text before the match; the source
is however the first such concept in concept-list iteration order, not the
textually nearest one, which the counterexample separates. -/
theorem C3_prereq_edge_properties (text : String) (mStart mEnd : Nat) (g1 : String)
    (concepts : List String) (e : Relationship)
    (h : prereqEdgeOfMatch text mStart mEnd g1 concepts = some e) :
    e.type = RelationshipType.PREREQ ∧ e.weight = 4/5 ∧ e.confidence = 3/5 ∧
    e.source ≠ e.target ∧
    substrOf (lowerStr e.source) (lowerStr (text.take mStart)) = true := by
  unfold prereqEdgeOfMatch at h
  dsimp only at h
  split at h
  · exact absurd h (by simp)
  case _ tgt _ =>
    split at h
    · exact absurd h (by simp)
    case _ p hfind =>
      split at h
      case isTrue hneq =>
        have hp := List.find?_some hfind
        have hmem := List.mem_of_find?_eq_some hfind
        obtain ⟨hsub, hbne⟩ : substrOf p.1 (lowerStr (text.take mStart)) = true ∧
            p.2 ≠ tgt := by simpa using hp
        have hkey := buildLookup_key_lower concepts p hmem
        rcases Option.some.inj h with rfl
        refine ⟨rfl, rfl, rfl, hneq, ?_⟩
        rw [← hkey]
        exact hsub
      case isFalse => exact absurd h (by simp)

/-- Modelled from the spec: the nearest known concept name appearing textually
before the match, i.e. among the lookup entries other than the target whose
lowercased name occurs in the lowercased text before the match, the one whose
last occurrence starts at the greatest offset.  The code does not compute
this; the counterexample below separates the two. -/
def lastOccStart (hay needle : List Char) : Option Nat :=
  ((List.range (hay.length + 1)).filter (fun i => needle.isPrefixOf (hay.drop i))).getLast?

/-- Modelled from the spec: see lastOccStart. -/
def nearestConceptBefore (textBefore : String) (lookup : List (String × String))
    (tgt : String) : Option String :=
  let cands := lookup.filterMap (fun p =>
    if p.2 ≠ tgt then (lastOccStart textBefore.data p.1.data).map (fun i => (p.2, i)) else none)
  (cands.foldl (fun best c =>
    match best with
    | none => some c
    | some b => if c.2 > b.2 then some c else some b) none).map Prod.fst

/-- The record text of the concrete PREREQ counterexample. -/
def c3Text : String := "Alpha appeared. Beta appeared. This requires understanding of gamma."

set_option maxRecDepth 100000 in
/-- Concrete refutation of claim C3 as frozen: on the record text above, with
concepts Alpha, Beta, Gamma, the first pattern matches at offset 36 capturing
gamma; the created edge takes source Alpha, the first concept in iteration
order occurring earlier in the text, while the nearest concept before the
match is Beta. -/
theorem C3_counterexample :
    (prereqEdgeOfMatch c3Text 36 68 "gamma" ["Alpha", "Beta", "Gamma"]).map
      Relationship.source = some "Alpha" ∧
    nearestConceptBefore (lowerStr (c3Text.take 36))
      (buildLookup ["Alpha", "Beta", "Gamma"]) "Gamma" = some "Beta" ∧
    ("Alpha" : String) ≠ "Beta" := by
  refine ⟨?_, ?_, by decide⟩
  · rfl
  · rfl

set_option maxRecDepth 100000 in
/-- Witness for the amended claim C3: the concrete match above does create an
edge, and the theorem applies to it. -/
theorem C3_witness :
    prereqEdgeOfMatch c3Text 36 68 "gamma" ["Alpha", "Beta", "Gamma"] =
      some ⟨"Alpha", "Gamma", RelationshipType.PREREQ, 4/5, 3/5,
        some ((c3Text.take (68 + 20)).drop (36 - 50))⟩ ∧
    substrOf (lowerStr "Alpha") (lowerStr (c3Text.take 36)) = true := by
  constructor
  · rfl
  · exact (C3_prereq_edge_properties c3Text 36 68 "gamma" ["Alpha", "Beta", "Gamma"]
      ⟨"Alpha", "Gamma", RelationshipType.PREREQ, 4/5, 3/5,
        some ((c3Text.take (68 + 20)).drop (36 - 50))⟩ rfl).2.2.2.2

/-- One accumulation into the RRF score dict: an existing document id keeps its
position and gains the increment, a fresh id is appended with it, exactly as
the Python dict assignment with scores.get(doc_id, 0.0) behaves. -/
def bump (scores : List (String × ℚ)) (id : String) (v : ℚ) : List (String × ℚ) :=
  match scores with
  | [] => [(id, v)]
  | (k, w) :: rest => if k = id then (k, w + v) :: rest else (k, w) :: bump rest id v

/-- Scores accumulated over one hit list, ranks counted from the given start,
as in enumerate(hits, start=1). -/
def rrfFold (k : Nat) : List (String × ℚ) → Nat → List String → List (String × ℚ)
  | s, _, [] => s
  | s, rank, h :: t => rrfFold k (bump s h (1 / ((k : ℚ) + rank))) (rank + 1) t

/-- Score dict of OpenSearchRetriever._reciprocal_rank_fusion over document
ids: the kNN hits are scanned first, then the BM25 hits, each occurrence
contributing 1 / (k + rank).  The payload fields of a hit ride along with its
id in the Python code and play no part in scoring or ordering. -/
def rrfScores (knn bm25 : List String) (k : Nat) : List (String × ℚ) :=
  rrfFold k (rrfFold k [] 1 knn) 1 bm25

/-- The fused ranking: ids sorted by fused score descending with the stable
Python sort. -/
def rrfRanking (knn bm25 : List String) (k : Nat) : List (String × ℚ) :=
  sortDescBy Prod.snd (rrfScores knn bm25 k)

/-- OpenSearchRetriever._reciprocal_rank_fusion: the fused ranking truncated
to the top_k ids, each with its fused score. -/
def reciprocal_rank_fusion (knn bm25 : List String) (k top_k : Nat) : List (String × ℚ) :=
  (rrfRanking knn bm25 k).take top_k

/-- Fused score of a document id, 0 when absent. -/
def scoreIn (l : List (String × ℚ)) (a : String) : ℚ :=
  ((l.find? (fun e => e.1 == a)).map Prod.snd).getD 0

theorem map_fst_bump (s : List (String × ℚ)) (id : String) (v : ℚ) :
    (bump s id v).map Prod.fst = addKey (s.map Prod.fst) id := by
  induction s with
  | nil => simp [bump, addKey]
  | cons e rest ih =>
    obtain ⟨k, w⟩ := e
    by_cases hk : k = id
    · rw [bump, if_pos hk, addKey_of_mem (by simp [hk])]
      simp
    · rw [bump, if_neg hk, List.map_cons, List.map_cons, ih]
      by_cases hm : id ∈ rest.map Prod.fst
      · rw [addKey_of_mem hm, addKey_of_mem (by simp [hm])]
      · rw [addKey_of_not_mem hm, addKey_of_not_mem (by
          intro hmem
          rcases List.mem_cons.mp hmem with hh | hh
          · exact hk hh.symm
          · exact hm hh)]
        simp

theorem map_fst_rrfFold (k : Nat) :
    ∀ (hits : List String) (s : List (String × ℚ)) (rank : Nat),
    (rrfFold k s rank hits).map Prod.fst = hits.foldl addKey (s.map Prod.fst)
  | [], s, rank => rfl
  | h :: t, s, rank => by
    rw [rrfFold, map_fst_rrfFold k t _ (rank + 1), map_fst_bump, List.foldl_cons]

theorem map_fst_rrfScores (knn bm25 : List String) (k : Nat) :
    (rrfScores knn bm25 k).map Prod.fst = pyDictOrder (knn ++ bm25) := by
  rw [rrfScores, map_fst_rrfFold, map_fst_rrfFold, pyDictOrder, List.foldl_append]
  rfl

theorem entry_mem_of_key_mem :
    ∀ (l : List (String × ℚ)) (a : String), a ∈ l.map Prod.fst → (a, scoreIn l a) ∈ l
  | [], a, h => absurd h (by simp)
  | (x, v) :: t, a, h => by
    by_cases hx : x = a
    · have : scoreIn ((x, v) :: t) a = v := by
        unfold scoreIn
        rw [List.find?_cons_of_pos _ (by simpa using hx)]
        rfl
      rw [this, ← hx]
      simp
    · have : scoreIn ((x, v) :: t) a = scoreIn t a := by
        unfold scoreIn
        rw [List.find?_cons_of_neg _ (by simpa using hx)]
      rw [this]
      refine List.mem_cons_of_mem _ (entry_mem_of_key_mem t a ?_)
      rw [List.map_cons] at h
      rcases List.mem_cons.mp h with hh | hh
      · exact absurd hh.symm hx
      · exact hh

/-- Position of a name among the names of the entries of a list. -/
def idxBy (nm : α → String) (l : List α) (a : String) : Nat := List.indexOf a (l.map nm)

theorem idxBy_filter_lt (nm : α → String) (p : α → Bool) :
    ∀ (l : List α) (ea eb : α), (l.map nm).Nodup → ea ∈ l → eb ∈ l →
    p ea = true → p eb = true → nm ea ≠ nm eb →
    idxBy nm l (nm ea) < idxBy nm l (nm eb) →
    idxBy nm (l.filter p) (nm ea) < idxBy nm (l.filter p) (nm eb)
  | [], ea, _, _, ha, _, _, _, _, _ => absurd ha (List.not_mem_nil _)
  | x :: t, ea, eb, hnd, ha, hb, hpa, hpb, hab, hidx => by
    rw [List.map_cons, List.nodup_cons] at hnd
    obtain ⟨hxnot, hndt⟩ := hnd
    by_cases hxa : nm x = nm ea
    · have hea : ea = x := by
        rcases List.mem_cons.mp ha with rfl | hat
        · rfl
        · exact absurd (hxa ▸ List.mem_map_of_mem nm hat) hxnot
      have hpx : p x = true := hea ▸ hpa
      rw [List.filter_cons_of_pos hpx]
      unfold idxBy
      rw [List.map_cons]
      have h0 : List.indexOf (nm ea) (nm x :: (t.filter p).map nm) = 0 :=
        List.indexOf_cons_eq _ hxa
      have h1 : List.indexOf (nm eb) (nm x :: (t.filter p).map nm) =
          (List.indexOf (nm eb) ((t.filter p).map nm)).succ :=
        List.indexOf_cons_ne _ (fun hh => hab (hxa ▸ hh ▸ rfl))
      rw [h0, h1]
      exact Nat.succ_pos _
    · by_cases hxb : nm x = nm eb
      · exfalso
        unfold idxBy at hidx
        rw [List.map_cons] at hidx
        rw [List.indexOf_cons_eq _ hxb, List.indexOf_cons_ne _ hxa] at hidx
        exact Nat.not_lt_zero _ hidx
      · have heat : ea ∈ t := by
          rcases List.mem_cons.mp ha with rfl | hat
          · exact absurd rfl hxa
          · exact hat
        have hebt : eb ∈ t := by
          rcases List.mem_cons.mp hb with rfl | hbt
          · exact absurd rfl hxb
          · exact hbt
        have hidx2 : idxBy nm t (nm ea) < idxBy nm t (nm eb) := by
          unfold idxBy at hidx ⊢
          rw [List.map_cons, List.indexOf_cons_ne _ hxa, List.indexOf_cons_ne _ hxb,
            Nat.succ_lt_succ_iff] at hidx
          exact hidx
        have ih := idxBy_filter_lt nm p t ea eb hndt heat hebt hpa hpb hab hidx2
        cases hpx : p x with
        | true =>
          rw [List.filter_cons_of_pos hpx]
          unfold idxBy at ih ⊢
          rw [List.map_cons, List.indexOf_cons_ne _ hxa, List.indexOf_cons_ne _ hxb,
            Nat.succ_lt_succ_iff]
          exact ih
        | false =>
          rw [List.filter_cons_of_neg (by simp [hpx])]
          exact ih

theorem idxBy_lt_of_filter_lt (nm : α → String) (p : α → Bool)
    (l : List α) (ea eb : α) (hnd : (l.map nm).Nodup) (ha : ea ∈ l) (hb : eb ∈ l)
    (hpa : p ea = true) (hpb : p eb = true) (hab : nm ea ≠ nm eb)
    (h : idxBy nm (l.filter p) (nm ea) < idxBy nm (l.filter p) (nm eb)) :
    idxBy nm l (nm ea) < idxBy nm l (nm eb) := by
  rcases Nat.lt_trichotomy (idxBy nm l (nm ea)) (idxBy nm l (nm eb)) with hlt | heq | hgt
  · exact hlt
  · exfalso
    have hmema : nm ea ∈ l.map nm := List.mem_map_of_mem nm ha
    have hmemb : nm eb ∈ l.map nm := List.mem_map_of_mem nm hb
    exact hab ((List.indexOf_inj hmema hmemb).mp heq)
  · exfalso
    have := idxBy_filter_lt nm p l eb ea hnd hb ha hpb hpa (Ne.symm hab) hgt
    exact Nat.lt_asymm h this

/-- Claim C4: reciprocal rank fusion with constant 60 over the lexical list
D1, D2, D3 and the vector list D2, D3, D4 gives each document the sum of
1 / (60 + rank) over the lists containing it and sorts descending, yielding
the fused order D2, D3, D1, D4 (D1 at 1/61 ahead of D4 at 1/63); identical
inputs reproduce the identical order. -/
theorem C4_rrf_concrete_order :
    rrfScores ["D2", "D3", "D4"] ["D1", "D2", "D3"] 60 =
      [("D2", 1/61 + 1/62), ("D3", 1/62 + 1/63), ("D4", 1/63), ("D1", 1/61)] ∧
    (rrfRanking ["D2", "D3", "D4"] ["D1", "D2", "D3"] 60).map Prod.fst =
      ["D2", "D3", "D1", "D4"] ∧
    (∀ v l : List String, v = ["D2", "D3", "D4"] → l = ["D1", "D2", "D3"] →
      (rrfRanking v l 60).map Prod.fst = ["D2", "D3", "D1", "D4"]) := by
  have h1 : rrfScores ["D2", "D3", "D4"] ["D1", "D2", "D3"] 60 =
      [("D2", 1/61 + 1/62), ("D3", 1/62 + 1/63), ("D4", 1/63), ("D1", 1/61)] := by
    simp [rrfScores, rrfFold, bump]
    norm_num
  have h2 : (rrfRanking ["D2", "D3", "D4"] ["D1", "D2", "D3"] 60).map Prod.fst =
      ["D2", "D3", "D1", "D4"] := by
    rw [rrfRanking, h1]
    norm_num [sortDescBy, insDescBy]
  exact ⟨h1, h2, fun v l hv hl => hv ▸ hl ▸ h2⟩

/-- Claim C5: the fused RRF ranking is a deterministic function of the two
ranked input lists, and when two documents carry equal fused scores their
relative order in the ranking is their order of first appearance across the
scanned lists, the kNN list scanned before the lexical one; no hash-map
iteration order is involved. -/
theorem C5_rrf_tie_break_first_appearance
    (knn bm25 : List String) (k : Nat) (a b : String)
    (hab : a ≠ b) (ha : a ∈ knn ++ bm25) (hb : b ∈ knn ++ bm25)
    (hscore : scoreIn (rrfScores knn bm25 k) a = scoreIn (rrfScores knn bm25 k) b)
    (hfirst : (knn ++ bm25).indexOf a < (knn ++ bm25).indexOf b) :
    (∀ knn2 bm252 : List String, knn2 = knn → bm252 = bm25 →
       rrfRanking knn2 bm252 k = rrfRanking knn bm25 k) ∧
    idxBy Prod.fst (rrfRanking knn bm25 k) a < idxBy Prod.fst (rrfRanking knn bm25 k) b := by
  refine ⟨fun knn2 bm252 h2 h3 => h2 ▸ h3 ▸ rfl, ?_⟩
  set L := rrfScores knn bm25 k with hL
  have hkeys : L.map Prod.fst = pyDictOrder (knn ++ bm25) := map_fst_rrfScores knn bm25 k
  have hnd : (L.map Prod.fst).Nodup := by rw [hkeys]; exact pyDictOrder_nodup _
  have hamem : a ∈ L.map Prod.fst := by rw [hkeys]; exact mem_pyDictOrder.mpr ha
  have hbmem : b ∈ L.map Prod.fst := by rw [hkeys]; exact mem_pyDictOrder.mpr hb
  have hea : (a, scoreIn L a) ∈ L := entry_mem_of_key_mem L a hamem
  have heb : (b, scoreIn L b) ∈ L := entry_mem_of_key_mem L b hbmem
  set q := scoreIn L a with hq
  set p : String × ℚ → Bool := fun e => decide (e.2 = q) with hp
  have hpa : p (a, scoreIn L a) = true := by simp [hp]
  have hpb : p (b, scoreIn L b) = true := by simp [hp, hscore]
  have hpre : idxBy Prod.fst L a < idxBy Prod.fst L b := by
    unfold idxBy
    rw [hkeys]
    exact foldl_addKey_respects_first (knn ++ bm25) [] a b (List.not_mem_nil _)
      (List.not_mem_nil _) hab hb hfirst
  have hfil : idxBy Prod.fst (L.filter p) a < idxBy Prod.fst (L.filter p) b :=
    idxBy_filter_lt Prod.fst p L (a, scoreIn L a) (b, scoreIn L b)
      hnd hea heb hpa hpb hab hpre
  have hsortfil : (sortDescBy Prod.snd L).filter p = L.filter p := by
    rw [filter_sortDescBy]
    refine @sortDescBy_of_const _ Prod.snd q (L.filter p) fun e he => ?_
    have h1 : p e = true := List.of_mem_filter he
    rw [hp] at h1
    simpa using h1
  have hperm : List.Perm (sortDescBy Prod.snd L) L := sortDescBy_perm Prod.snd L
  have hnds : ((sortDescBy Prod.snd L).map Prod.fst).Nodup :=
    ((hperm.map Prod.fst).nodup_iff).mpr hnd
  have heas : (a, scoreIn L a) ∈ sortDescBy Prod.snd L := hperm.mem_iff.mpr hea
  have hebs : (b, scoreIn L b) ∈ sortDescBy Prod.snd L := hperm.mem_iff.mpr heb
  have hgoal := idxBy_lt_of_filter_lt Prod.fst p (sortDescBy Prod.snd L)
    (a, scoreIn L a) (b, scoreIn L b) hnds heas hebs hpa hpb hab
    (by rw [hsortfil]; exact hfil)
  exact hgoal

/-- Witness for claim C5: one-element lists tie at score 1/61 and the kNN
document A precedes the lexical document B in the fused ranking. -/
theorem C5_witness :
    scoreIn (rrfScores ["A"] ["B"] 60) "A" = scoreIn (rrfScores ["A"] ["B"] 60) "B" ∧
    idxBy Prod.fst (rrfRanking ["A"] ["B"] 60) "A" <
      idxBy Prod.fst (rrfRanking ["A"] ["B"] 60) "B" := by
  have hscore : scoreIn (rrfScores ["A"] ["B"] 60) "A" =
      scoreIn (rrfScores ["A"] ["B"] 60) "B" := by
    simp [rrfScores, rrfFold, bump, scoreIn]
  exact ⟨hscore, (C5_rrf_tie_break_first_appearance ["A"] ["B"] 60 "A" "B"
    (by decide) (by decide) (by decide) hscore (by decide)).2⟩

/-- A matched concept with metadata, from app.nlp.concept_extractor. -/
structure ConceptMatch where
  name : String
  score : ℚ
  strategy : String
  original_text : Option String := none
deriving DecidableEq, Repr

/-- Contribution of one strategy inside the ensemble loop of
_extract_ensemble: its match list when the call returns, nothing when it
raises, since the exception is caught and logged there. -/
def strategyContrib (r : Except String (List ConceptMatch)) : List ConceptMatch :=
  match r with
  | Except.ok l => l
  | Except.error _ => []

/-- Grouping step of _extract_ensemble: a match is appended to the entry of
its concept name in an insertion-ordered dict of match lists. -/
def dictAppend (d : List (String × List ConceptMatch)) (m : ConceptMatch) :
    List (String × List ConceptMatch) :=
  match d with
  | [] => [(m.name, [m])]
  | (k, l) :: rest => if k = m.name then (k, l ++ [m]) :: rest else (k, l) :: dictAppend rest m

/-- The all_matches dict of _extract_ensemble over the concatenated strategy
contributions, the named-entity strategy scanned before the keyword one. -/
def buildAllMatches (ms : List ConceptMatch) : List (String × List ConceptMatch) :=
  ms.foldl dictAppend []

/-- Score fusion of _extract_ensemble for one concept: the maximum score over
its matches, boosted by twenty percent per further distinct strategy, capped
at one; the original text comes from the first match of the group. -/
def fuseEntry (e : String × List ConceptMatch) : ConceptMatch :=
  ⟨e.1,
   min 1 (maxQ (e.2.map ConceptMatch.score) *
     (1 + (1/5) * (((e.2.map ConceptMatch.strategy).dedup.length : ℚ) - 1))),
   "ensemble",
   e.2.head?.elim none (fun m => m.original_text)⟩

/-- ConceptExtractor._extract_ensemble with the two strategy calls it makes
(named entities, then keywords) given as oracle results. -/
def extract_ensemble (nerRes yakeRes : Except String (List ConceptMatch)) :
    List ConceptMatch :=
  (buildAllMatches (strategyContrib nerRes ++ strategyContrib yakeRes)).map fuseEntry

/-- ConceptExtractor.extract_concepts: empty text short-circuits to the empty
list before any strategy dispatch; otherwise the chosen strategy runs (its
result or exception is an oracle argument), an unknown strategy raises
ValueError, and the matches are sorted by score descending with the stable
Python sort and truncated to top_k. -/
def extract_concepts (text strategy : String) (top_k : Nat)
    (nerRes embRes yakeRes ftRes : Except String (List ConceptMatch)) :
    Except String (List ConceptMatch) :=
  if text = "" then Except.ok []
  else
    let post := fun ms : List ConceptMatch =>
      (sortDescBy ConceptMatch.score ms).take top_k
    if strategy = "ner" then nerRes.map post
    else if strategy = "embedding" then embRes.map post
    else if strategy = "yake" then yakeRes.map post
    else if strategy = "fulltext" then ftRes.map post
    else if strategy = "ensemble" then Except.ok (post (extract_ensemble nerRes yakeRes))
    else Except.error ("Unknown strategy: " ++ strategy)

theorem filter_dictAppend_of_neg (P : String → Bool) {m : ConceptMatch}
    (hm : P m.name = false) :
    ∀ d : List (String × List ConceptMatch),
    (dictAppend d m).filter (fun e => P e.1) = d.filter (fun e => P e.1)
  | [] => by simp [dictAppend, hm]
  | (k, l) :: rest => by
    by_cases hk : k = m.name
    · rw [dictAppend, if_pos hk]
      rw [List.filter_cons_of_neg (by simpa [hk] using hm),
        List.filter_cons_of_neg (by simpa [hk] using hm)]
    · rw [dictAppend, if_neg hk]
      cases hP : P k with
      | true =>
        rw [List.filter_cons_of_pos (by simpa using hP),
          List.filter_cons_of_pos (by simpa using hP),
          filter_dictAppend_of_neg P hm rest]
      | false =>
        rw [List.filter_cons_of_neg (by simp [hP]),
          List.filter_cons_of_neg (by simp [hP]),
          filter_dictAppend_of_neg P hm rest]

theorem filter_dictAppend_of_pos (P : String → Bool) {m : ConceptMatch}
    (hm : P m.name = true) :
    ∀ d : List (String × List ConceptMatch),
    (dictAppend d m).filter (fun e => P e.1) = dictAppend (d.filter (fun e => P e.1)) m
  | [] => by simp [dictAppend, hm]
  | (k, l) :: rest => by
    by_cases hk : k = m.name
    · rw [dictAppend, if_pos hk]
      rw [List.filter_cons_of_pos (by simpa [hk] using hm),
        List.filter_cons_of_pos (by simpa [hk] using hm), dictAppend, if_pos hk]
    · rw [dictAppend, if_neg hk]
      cases hP : P k with
      | true =>
        rw [List.filter_cons_of_pos (by simpa using hP),
          List.filter_cons_of_pos (by simpa using hP),
          filter_dictAppend_of_pos P hm rest, dictAppend, if_neg hk]
      | false =>
        rw [List.filter_cons_of_neg (by simp [hP]),
          List.filter_cons_of_neg (by simp [hP]),
          filter_dictAppend_of_pos P hm rest]

theorem filter_foldl_dictAppend (P : String → Bool) :
    ∀ (ms : List ConceptMatch) (d1 d2 : List (String × List ConceptMatch)),
    d1.filter (fun e => P e.1) = d2.filter (fun e => P e.1) →
    (ms.foldl dictAppend d1).filter (fun e => P e.1) =
      (ms.foldl dictAppend d2).filter (fun e => P e.1)
  | [], _, _, h => h
  | m :: t, d1, d2, h => by
    rw [List.foldl_cons, List.foldl_cons]
    refine filter_foldl_dictAppend P t _ _ ?_
    cases hm : P m.name with
    | false => rw [filter_dictAppend_of_neg P hm, filter_dictAppend_of_neg P hm, h]
    | true => rw [filter_dictAppend_of_pos P hm, filter_dictAppend_of_pos P hm, h]

theorem mem_dictAppend_key {d : List (String × List ConceptMatch)} {m : ConceptMatch}
    {e : String × List ConceptMatch} (h : e ∈ dictAppend d m) :
    e.1 ∈ d.map Prod.fst ∨ e.1 = m.name := by
  induction d with
  | nil =>
    rcases List.mem_singleton.mp (by simpa [dictAppend] using h) with rfl
    exact Or.inr rfl
  | cons x rest ih =>
    obtain ⟨k, l⟩ := x
    by_cases hk : k = m.name
    · rw [dictAppend, if_pos hk] at h
      rcases List.mem_cons.mp h with rfl | hm
      · exact Or.inr hk
      · exact Or.inl (by simp [List.mem_map_of_mem Prod.fst hm])
    · rw [dictAppend, if_neg hk] at h
      rcases List.mem_cons.mp h with rfl | hm
      · exact Or.inl (by simp)
      · rcases ih hm with h2 | h2
        · exact Or.inl (by simp [h2])
        · exact Or.inr h2

theorem key_mem_of_mem_buildAll :
    ∀ (ms : List ConceptMatch) (d : List (String × List ConceptMatch))
      (e : String × List ConceptMatch), e ∈ ms.foldl dictAppend d →
    e.1 ∈ d.map Prod.fst ∨ e.1 ∈ ms.map ConceptMatch.name
  | [], _, e, h => Or.inl (List.mem_map_of_mem Prod.fst h)
  | m :: t, d, e, h => by
    rw [List.foldl_cons] at h
    rcases key_mem_of_mem_buildAll t (dictAppend d m) e h with h2 | h2
    · rcases List.mem_map.mp h2 with ⟨x, hx, hxe⟩
      rcases mem_dictAppend_key hx with h3 | h3
      · exact Or.inl (hxe ▸ h3)
      · exact Or.inr (by simp [← hxe, h3])
    · exact Or.inr (List.mem_cons_of_mem _ h2)

theorem filter_buildAll_append (P : String → Bool) (A B : List ConceptMatch)
    (hA : ∀ n ∈ A.map ConceptMatch.name, P n = false) :
    (buildAllMatches (A ++ B)).filter (fun e => P e.1) =
      (buildAllMatches B).filter (fun e => P e.1) := by
  unfold buildAllMatches
  rw [List.foldl_append]
  refine filter_foldl_dictAppend P B (A.foldl dictAppend []) [] ?_
  rw [List.filter_eq_nil_iff.mpr, List.filter_nil]
  intro e he
  rcases key_mem_of_mem_buildAll A [] e he with h | h
  · simp at h
  · simp [hA e.1 h]

/-- Claim C9: with empty text, extract_concepts returns the empty list and
raises nothing, for every strategy name (also unrecognized ones), every top_k
and every behavior of the strategy calls, because the empty-text check comes
before the strategy dispatch. -/
theorem C9_empty_text_returns_empty (strategy : String) (top_k : Nat)
    (nerRes embRes yakeRes ftRes : Except String (List ConceptMatch)) :
    extract_concepts "" strategy top_k nerRes embRes yakeRes ftRes = Except.ok [] := rfl

/-- Claim C8: when the named-entity strategy raises inside ensemble
extraction, extract_concepts still returns normally with the ranking of the
surviving keyword matches, identical to a run where the named-entity call
returns nothing; and for concepts matched only by the surviving strategy the
fused rankings of the failing run and of a fully healthy run agree entry for
entry, with the same scores and the same relative order. -/
theorem C8_ensemble_degrades_gracefully
    (text : String) (htext : text ≠ "") (top_k : Nat) (msg : String)
    (nerL yakeL : List ConceptMatch) (embRes ftRes : Except String (List ConceptMatch)) :
    (extract_concepts text "ensemble" top_k (Except.error msg) embRes
        (Except.ok yakeL) ftRes =
      Except.ok ((sortDescBy ConceptMatch.score
        (extract_ensemble (Except.ok []) (Except.ok yakeL))).take top_k)) ∧
    (extract_ensemble (Except.error msg) (Except.ok yakeL) =
      extract_ensemble (Except.ok []) (Except.ok yakeL)) ∧
    ((sortDescBy ConceptMatch.score
        (extract_ensemble (Except.ok nerL) (Except.ok yakeL))).filter
          (fun m => !((nerL.map ConceptMatch.name).contains m.name)) =
      (sortDescBy ConceptMatch.score
        (extract_ensemble (Except.error msg) (Except.ok yakeL))).filter
          (fun m => !((nerL.map ConceptMatch.name).contains m.name))) := by
  refine ⟨?_, rfl, ?_⟩
  · unfold extract_concepts
    rw [if_neg htext]
    rfl
  · set P : String → Bool := fun n => !((nerL.map ConceptMatch.name).contains n) with hP
    have hcomp : ∀ d : List (String × List ConceptMatch),
        (d.map fuseEntry).filter (fun m => P m.name) =
          (d.filter (fun e => P e.1)).map fuseEntry := by
      intro d
      rw [List.filter_map]
      rfl
    show (sortDescBy ConceptMatch.score _).filter (fun m => P m.name) =
      (sortDescBy ConceptMatch.score _).filter (fun m => P m.name)
    rw [filter_sortDescBy, filter_sortDescBy]
    unfold extract_ensemble
    rw [hcomp, hcomp]
    have hA : ∀ n ∈ (strategyContrib (Except.ok nerL)).map ConceptMatch.name, P n = false := by
      intro n hn
      rw [hP]
      have hn2 : n ∈ nerL.map ConceptMatch.name := hn
      simp [List.contains, hn2]
    rw [filter_buildAll_append P _ _ hA]
    rfl

/-- Witness for claim C8 at a concrete failing run. -/
theorem C8_witness :
    extract_concepts "t" "ensemble" 10 (Except.error "model unavailable")
        (Except.ok []) (Except.ok [⟨"Y", 1/2, "yake", none⟩, ⟨"Z", 2/5, "yake", none⟩])
        (Except.ok []) =
      Except.ok ((sortDescBy ConceptMatch.score
        (extract_ensemble (Except.ok [])
          (Except.ok [⟨"Y", 1/2, "yake", none⟩, ⟨"Z", 2/5, "yake", none⟩]))).take 10) :=
  (C8_ensemble_degrades_gracefully "t" (by decide) 10 "model unavailable"
    [⟨"X", 9/10, "ner", none⟩] [⟨"Y", 1/2, "yake", none⟩, ⟨"Z", 2/5, "yake", none⟩]
    (Except.ok []) (Except.ok [])).1

/-- Result record of KGExpander.expand_query. -/
structure QueryExpansion where
  original_query : String
  extracted_concepts : List String
  expanded_concepts : List String
  expanded_query : String
  expansion_count : Int
deriving DecidableEq, Repr

/-- KGExpander._extract_simple: the known concepts whose lowercased name is a
substring of the lowercased query, sorted by length descending with the
stable Python sort, at most five.  The known-concepts set iterates in
unspecified order; the given list order stands in for it. -/
def extract_simple (query : String) (allConcepts : List String) : List String :=
  (sortDescBy (fun c => (c.length : ℚ))
    (allConcepts.filter (fun c => substrOf (lowerStr c) (lowerStr query)))).take 5

/-- KGExpander.expand_with_kg: with no Neo4j adapter the concept list is
returned unchanged; with one, the neighbor names of each concept join the
concepts in a Python set (first-occurrence order standing in for its
unspecified iteration order; only membership is relied on below), and a
traversal failure for one concept is swallowed, contributing nothing. -/
def expand_with_kg (adapter : Option (String → Except String (List String)))
    (concepts : List String) : List String :=
  match adapter with
  | none => concepts
  | some neighbors =>
    pyDictOrder (concepts ++ concepts.flatMap (fun c =>
      match neighbors c with
      | Except.ok ns => ns
      | Except.error _ => []))

/-- KGExpander.expand_query with the concept-extraction stage and the graph
adapter as oracles: extract, expand through the graph, then append the
expanded concept names to the query as a space-joined suffix when any exist. -/
def expand_query (extract : String → List String → List String)
    (adapter : Option (String → Except String (List String)))
    (query : String) (allConcepts : List String) : QueryExpansion :=
  let extracted := extract query allConcepts
  let expanded := expand_with_kg adapter extracted
  let expandedQuery :=
    if expanded.isEmpty then query else query ++ " " ++ String.intercalate " " expanded
  ⟨query, extracted, expanded, expandedQuery,
   (expanded.length : Int) - (extracted.length : Int)⟩

/-- Claim C2 (amended): the expanded query is the original query with the
expanded concept names appended as a space-joined suffix whenever the expanded
list is nonempty, and it equals the original query exactly when that list is
empty, i.e. when no concepts were extracted at all; when extraction found
concepts but graph traversal added nothing beyond them, the extracted names
are still appended, so the query does change (see the counterexample). -/
theorem C2_expand_query_suffix
    (extract : String → List String → List String)
    (adapter : Option (String → Except String (List String)))
    (query : String) (allConcepts : List String) :
    ((expand_query extract adapter query allConcepts).expanded_concepts ≠ [] →
      (expand_query extract adapter query allConcepts).expanded_query =
        query ++ " " ++ String.intercalate " "
          (expand_query extract adapter query allConcepts).expanded_concepts) ∧
    ((expand_query extract adapter query allConcepts).expanded_concepts = [] →
      (expand_query extract adapter query allConcepts).expanded_query = query) ∧
    ((expand_query extract adapter query allConcepts).expanded_query = query ↔
      (expand_query extract adapter query allConcepts).expanded_concepts = []) := by
  set expanded := (expand_query extract adapter query allConcepts).expanded_concepts with he
  have hq : (expand_query extract adapter query allConcepts).expanded_query =
      if expanded.isEmpty then query
      else query ++ " " ++ String.intercalate " " expanded := rfl
  by_cases hemp : expanded = []
  · rw [hq, if_pos (List.isEmpty_iff.mpr hemp)]
    exact ⟨fun h => absurd hemp h, fun _ => rfl, by simp [hemp]⟩
  · rw [hq, if_neg (fun h => hemp (List.isEmpty_iff.mp h))]
    have hne : query ++ " " ++ String.intercalate " " expanded ≠ query := by
      intro heq
      have hlen := congrArg String.length heq
      rw [String.length_append, String.length_append] at hlen
      have h1 : (" " : String).length = 1 := rfl
      omega
    exact ⟨fun _ => rfl, fun h => absurd h hemp,
      ⟨fun h => absurd h hne, fun h => absurd h hemp⟩⟩

/-- Concrete refutation of claim C2 as frozen: extraction finds the concept
Photosynthesis in the query, no adapter is connected so graph traversal adds
nothing beyond it, yet the returned expanded query is the query with the
extracted name appended, not the original query unchanged. -/
theorem C2_counterexample :
    (expand_query extract_simple none "photosynthesis" ["Photosynthesis"]).extracted_concepts =
      ["Photosynthesis"] ∧
    (expand_query extract_simple none "photosynthesis" ["Photosynthesis"]).expanded_concepts =
      ["Photosynthesis"] ∧
    (expand_query extract_simple none "photosynthesis" ["Photosynthesis"]).expanded_query =
      "photosynthesis Photosynthesis" ∧
    ("photosynthesis Photosynthesis" : String) ≠ "photosynthesis" := by
  refine ⟨rfl, rfl, rfl, by decide⟩

/-- Witness for the amended claim C2 at the concrete input above. -/
theorem C2_witness :
    (expand_query extract_simple none "photosynthesis" ["Photosynthesis"]).expanded_concepts ≠
      [] ∧
    (expand_query extract_simple none "photosynthesis" ["Photosynthesis"]).expanded_query =
      "photosynthesis" ++ " " ++ String.intercalate " "
        (expand_query extract_simple none "photosynthesis" ["Photosynthesis"]).expanded_concepts :=
  ⟨by decide,
   (C2_expand_query_suffix extract_simple none "photosynthesis" ["Photosynthesis"]).1
     (by decide)⟩

/-- Claim C10: expand_with_kg with no connected adapter returns the concept
list unchanged and raises nothing; with one, a traversal failure for one
concept is swallowed while every concept whose traversal succeeds still
contributes its neighbors, and the original concepts are always kept. -/
theorem C10_expand_with_kg_resilient :
    (∀ concepts : List String, expand_with_kg none concepts = concepts) ∧
    (∀ (f : String → Except String (List String)) (concepts : List String)
       (c n : String) (ns : List String), c ∈ concepts → f c = Except.ok ns → n ∈ ns →
       n ∈ expand_with_kg (some f) concepts) ∧
    (∀ (f : String → Except String (List String)) (concepts : List String) (c : String),
       c ∈ concepts → c ∈ expand_with_kg (some f) concepts) := by
  refine ⟨fun _ => rfl, ?_, ?_⟩
  · intro f concepts c n ns hc hf hn
    unfold expand_with_kg
    rw [mem_pyDictOrder, List.mem_append]
    refine Or.inr (List.mem_flatMap.mpr ⟨c, hc, ?_⟩)
    rw [hf]
    exact hn
  · intro f concepts c hc
    unfold expand_with_kg
    rw [mem_pyDictOrder, List.mem_append]
    exact Or.inl hc

/-- Witness exercising claim C10 concretely: the traversal of concept a fails,
concept b still contributes its neighbor n. -/
theorem C10_witness :
    (expand_with_kg none ["a", "b"] = ["a", "b"]) ∧
    "n" ∈ expand_with_kg
      (some fun c => if c = "a" then Except.error "boom" else Except.ok ["n"]) ["a", "b"] :=
  ⟨(C10_expand_with_kg_resilient.1) ["a", "b"],
   (C10_expand_with_kg_resilient.2.1)
     (fun c => if c = "a" then Except.error "boom" else Except.ok ["n"])
     ["a", "b"] "b" "n" ["n"] (by decide) (by simp) (by decide)⟩

/-- Undirected networkx graph as built in _compute_importance_scores: node
list in insertion order plus an edge weight map on unordered pairs, where
re-adding an edge overwrites its weight. -/
structure NxGraph where
  nodes : List String
  adj : List ((String × String) × ℚ)
deriving DecidableEq, Repr

/-- Whether a stored edge joins the two given endpoints, in either order. -/
def sameEdge (p : String × String) (u v : String) : Bool :=
  decide ((p.1 = u ∧ p.2 = v) ∨ (p.1 = v ∧ p.2 = u))

/-- Weight assignment of add_edge: an existing edge takes the new weight. -/
def nxSetEdge : List ((String × String) × ℚ) → String → String → ℚ →
    List ((String × String) × ℚ)
  | [], u, v, w => [((u, v), w)]
  | e :: rest, u, v, w =>
    if sameEdge e.1 u v then (e.1, w) :: rest else e :: nxSetEdge rest u v w

/-- networkx add_edge: missing endpoints become nodes, the weight is set. -/
def nxAddEdge (g : NxGraph) (u v : String) (w : ℚ) : NxGraph :=
  ⟨addKey (addKey g.nodes u) v, nxSetEdge g.adj u v w⟩

/-- Adjacency weight, 0 when the edge is absent. -/
def nxWeight (adj : List ((String × String) × ℚ)) (u v : String) : ℚ :=
  match adj.find? (fun e => sameEdge e.1 u v) with
  | some e => e.2
  | none => 0

/-- Whether a relationship enters the importance graph. -/
def isScoreEdge (r : Relationship) : Bool :=
  decide (r.type = RelationshipType.RELATED ∨ r.type = RelationshipType.PREREQ)

/-- The networkx graph of _compute_importance_scores: every concept is added
as a node, then every RELATED or PREREQ relationship contributes an
undirected weighted edge. -/
def importanceGraph (kg : KnowledgeGraph) : NxGraph :=
  (kg.relationships.filter isScoreEdge).foldl
    (fun g r => nxAddEdge g r.source r.target r.weight)
    ⟨(kg.concepts.map Prod.fst).foldl addKey [], []⟩

/-- The pagerank damping factor networkx defaults to. -/
def prAlpha : ℚ := 17/20

/-- The pagerank tolerance networkx defaults to. -/
def prTol : ℚ := 1/1000000

/-- Out-weight of a node: the sum of its adjacency row. -/
def rowSum (g : NxGraph) (u : String) : ℚ :=
  (g.nodes.map (fun v => nxWeight g.adj u v)).sum

/-- Stochastic inflow into one node from the current vector; dangling rows
contribute nothing here. -/
def prInflow (g : NxGraph) (xs : List (String × ℚ)) (v : String) : ℚ :=
  (xs.map (fun p =>
    if rowSum g p.1 = 0 then 0 else p.2 * nxWeight g.adj p.1 v / rowSum g p.1)).sum

/-- Total mass sitting on dangling nodes. -/
def prDangleSum (g : NxGraph) (xs : List (String × ℚ)) : ℚ :=
  (xs.map (fun p => if rowSum g p.1 = 0 then p.2 else 0)).sum

/-- One power-iteration step of networkx pagerank with uniform start and
personalization: damping times inflow plus redistributed dangling mass, plus
the teleport term. -/
def prStep (g : NxGraph) (xs : List (String × ℚ)) : List (String × ℚ) :=
  let n : ℚ := g.nodes.length
  let d := prDangleSum g xs
  xs.map (fun p =>
    (p.1, prAlpha * (prInflow g xs p.1 + d * (1 / n)) + (1 - prAlpha) * (1 / n)))

/-- The l1 distance between two aligned vectors. -/
def prErr (xs ys : List (String × ℚ)) : ℚ :=
  ((xs.zip ys).map (fun p => |p.1.2 - p.2.2|)).sum

/-- The convergence loop of networkx pagerank: up to max_iter steps, stopping
once the l1 change drops below the node count times the tolerance; exhausting
the iterations raises PowerIterationFailedConvergence, modelled as none. -/
def prLoop (g : NxGraph) : Nat → List (String × ℚ) → Option (List (String × ℚ))
  | 0, _ => none
  | n + 1, xs =>
    let ys := prStep g xs
    if prErr ys xs < (g.nodes.length : ℚ) * prTol then some ys else prLoop g n ys

/-- networkx pagerank with the defaults the builder uses: damping 0.85,
uniform start and personalization, tolerance 1e-6, at most 100 iterations;
machine floats are modelled as exact rationals. -/
def pagerank (g : NxGraph) : Option (List (String × ℚ)) :=
  if g.nodes.length = 0 then some []
  else prLoop g 100 (g.nodes.map (fun u => (u, 1 / (g.nodes.length : ℚ))))

/-- Writing one normalized score into the concept dict; a pagerank key absent
from the dict would raise KeyError, modelled as none. -/
def setImportance : List (String × ConceptNode) → String → ℚ →
    Option (List (String × ConceptNode))
  | [], _, _ => none
  | (k, c) :: rest, u, s =>
    if k = u then some ((k, { c with importance_score := s }) :: rest)
    else (setImportance rest u s).map (fun cs => (k, c) :: cs)

/-- The normalization loop: every pagerank score, divided by the maximum, is
written into its concept node. -/
def applyScores (concepts : List (String × ConceptNode))
    (prs : List (String × ℚ)) (maxPr : ℚ) : Option (List (String × ConceptNode)) :=
  prs.foldlM (fun cs p => setImportance cs p.1 (p.2 / maxPr)) concepts

/-- KGBuilder._compute_importance_scores: build the undirected graph over all
concepts with the RELATED and PREREQ edges, run pagerank whenever at least
one node exists, with or without edges, and write each score divided by the
maximum into the concepts; with zero nodes nothing is touched. -/
def compute_importance_scores (kg : KnowledgeGraph) : Option KnowledgeGraph :=
  let g := importanceGraph kg
  if 0 < g.nodes.length then
    match pagerank g with
    | none => none
    | some prs =>
      let maxPr := if prs = [] then 1 else maxQ (prs.map Prod.snd)
      (applyScores kg.concepts prs maxPr).map (fun cs => { kg with concepts := cs })
  else some kg

theorem prLoop_of_converge {g : NxGraph} {xs : List (String × ℚ)} {n : Nat}
    (hn : n ≠ 0) (h : prErr (prStep g xs) xs < (g.nodes.length : ℚ) * prTol) :
    prLoop g n xs = some (prStep g xs) := by
  cases n with
  | zero => exact absurd rfl hn
  | succ m =>
    rw [prLoop]
    exact if_pos h

theorem prErr_self : ∀ xs : List (String × ℚ), prErr xs xs = 0
  | [] => rfl
  | p :: t => by
    have ht := prErr_self t
    unfold prErr at ht ⊢
    rw [List.zip_cons_cons, List.map_cons, List.sum_cons, ht]
    simp

theorem sum_map_const {α : Type _} (l : List α) (c : ℚ) :
    (l.map (fun _ => c)).sum = l.length * c := by
  induction l with
  | nil => simp
  | cons x t ih =>
    rw [List.map_cons, List.sum_cons, ih, List.length_cons]
    push_cast
    ring

theorem prStep_keys (g : NxGraph) (xs : List (String × ℚ)) :
    (prStep g xs).map Prod.fst = xs.map Prod.fst := by
  unfold prStep
  rw [List.map_map]
  rfl

theorem prLoop_keys {g : NxGraph} :
    ∀ (n : Nat) (xs ys : List (String × ℚ)), prLoop g n xs = some ys →
    ys.map Prod.fst = xs.map Prod.fst
  | 0, _, _, h => by simp [prLoop] at h
  | n + 1, xs, ys, h => by
    rw [prLoop] at h
    by_cases hc : prErr (prStep g xs) xs < (g.nodes.length : ℚ) * prTol
    · rw [if_pos hc] at h
      rw [← Option.some.inj h, prStep_keys]
    · rw [if_neg hc] at h
      rw [prLoop_keys n (prStep g xs) ys h, prStep_keys]

theorem mem_nxSetEdge {u v : String} {w : ℚ} {e : (String × String) × ℚ} :
    ∀ adj : List ((String × String) × ℚ), e ∈ nxSetEdge adj u v w → e ∈ adj ∨ e.2 = w
  | [], h => by
    rcases List.mem_singleton.mp (by simpa [nxSetEdge] using h) with rfl
    exact Or.inr rfl
  | x :: rest, h => by
    rw [nxSetEdge] at h
    by_cases hx : sameEdge x.1 u v
    · rw [if_pos hx] at h
      rcases List.mem_cons.mp h with rfl | hm
      · exact Or.inr rfl
      · exact Or.inl (List.mem_cons_of_mem _ hm)
    · rw [if_neg hx] at h
      rcases List.mem_cons.mp h with rfl | hm
      · exact Or.inl (by simp)
      · rcases mem_nxSetEdge rest hm with h2 | h2
        · exact Or.inl (List.mem_cons_of_mem _ h2)
        · exact Or.inr h2

theorem importanceGraph_adj_nonneg {kg : KnowledgeGraph}
    (hw : ∀ r ∈ kg.relationships, 0 ≤ r.weight) :
    ∀ e ∈ (importanceGraph kg).adj, 0 ≤ e.2 := by
  have hgen : ∀ (rs : List Relationship) (g0 : NxGraph),
      (∀ e ∈ g0.adj, 0 ≤ e.2) → (∀ r ∈ rs, 0 ≤ r.weight) →
      ∀ e ∈ (rs.foldl (fun g r => nxAddEdge g r.source r.target r.weight) g0).adj, 0 ≤ e.2 := by
    intro rs
    induction rs with
    | nil => intro g0 h0 _ e he; exact h0 e he
    | cons r t ih =>
      intro g0 h0 hrs e he
      rw [List.foldl_cons] at he
      refine ih (nxAddEdge g0 r.source r.target r.weight) ?_
        (fun x hx => hrs x (List.mem_cons_of_mem _ hx)) e he
      intro x hx
      rcases mem_nxSetEdge g0.adj hx with h2 | h2
      · exact h0 x h2
      · rw [h2]
        exact hrs r (by simp)
  intro e he
  refine hgen (kg.relationships.filter isScoreEdge) _ (by simp) ?_ e he
  intro r hr
  exact hw r (List.mem_of_mem_filter hr)

theorem nxWeight_nonneg {adj : List ((String × String) × ℚ)}
    (h : ∀ e ∈ adj, 0 ≤ e.2) (u v : String) : 0 ≤ nxWeight adj u v := by
  unfold nxWeight
  cases hf : adj.find? (fun e => sameEdge e.1 u v) with
  | none => exact le_refl 0
  | some e => exact h e (List.mem_of_find?_eq_some hf)

theorem rowSum_nonneg {g : NxGraph} (h : ∀ e ∈ g.adj, 0 ≤ e.2) (u : String) :
    0 ≤ rowSum g u := by
  refine List.sum_nonneg ?_
  intro x hx
  rcases List.mem_map.mp hx with ⟨v, _, rfl⟩
  exact nxWeight_nonneg h u v

theorem prInflow_nonneg {g : NxGraph} {xs : List (String × ℚ)}
    (hadj : ∀ e ∈ g.adj, 0 ≤ e.2) (hx : ∀ p ∈ xs, 0 ≤ p.2) (v : String) :
    0 ≤ prInflow g xs v := by
  refine List.sum_nonneg ?_
  intro x hxm
  rcases List.mem_map.mp hxm with ⟨p, hp, rfl⟩
  by_cases hr : rowSum g p.1 = 0
  · rw [if_pos hr]
  · rw [if_neg hr]
    exact div_nonneg (mul_nonneg (hx p hp) (nxWeight_nonneg hadj p.1 v))
      (rowSum_nonneg hadj p.1)

theorem prDangleSum_nonneg {g : NxGraph} {xs : List (String × ℚ)}
    (hx : ∀ p ∈ xs, 0 ≤ p.2) : 0 ≤ prDangleSum g xs := by
  refine List.sum_nonneg ?_
  intro x hxm
  rcases List.mem_map.mp hxm with ⟨p, hp, rfl⟩
  by_cases hr : rowSum g p.1 = 0
  · rw [if_pos hr]; exact hx p hp
  · rw [if_neg hr]

theorem prStep_pos {g : NxGraph} {xs : List (String × ℚ)}
    (hadj : ∀ e ∈ g.adj, 0 ≤ e.2) (hN : 0 < g.nodes.length)
    (hx : ∀ p ∈ xs, 0 ≤ p.2) : ∀ p ∈ prStep g xs, 0 < p.2 := by
  intro p hp
  unfold prStep at hp
  rcases List.mem_map.mp hp with ⟨q, hq, rfl⟩
  have hNQ : (0 : ℚ) < 1 / (g.nodes.length : ℚ) := by
    refine one_div_pos.mpr ?_
    exact_mod_cast hN
  refine add_pos_of_nonneg_of_pos ?_ ?_
  · refine mul_nonneg (by norm_num [prAlpha]) ?_
    exact add_nonneg (prInflow_nonneg hadj hx q.1)
      (mul_nonneg (prDangleSum_nonneg hx) (le_of_lt hNQ))
  · exact mul_pos (by norm_num [prAlpha]) hNQ

theorem prStep_nonneg {g : NxGraph} {xs : List (String × ℚ)}
    (hadj : ∀ e ∈ g.adj, 0 ≤ e.2) (hN : 0 < g.nodes.length)
    (hx : ∀ p ∈ xs, 0 ≤ p.2) : ∀ p ∈ prStep g xs, 0 ≤ p.2 :=
  fun p hp => le_of_lt (prStep_pos hadj hN hx p hp)

theorem prLoop_pos {g : NxGraph}
    (hadj : ∀ e ∈ g.adj, 0 ≤ e.2) (hN : 0 < g.nodes.length) :
    ∀ (n : Nat) (xs ys : List (String × ℚ)), (∀ p ∈ xs, 0 ≤ p.2) →
    prLoop g n xs = some ys → ∀ p ∈ ys, 0 < p.2
  | 0, _, _, _, h => by simp [prLoop] at h
  | n + 1, xs, ys, hx, h => by
    rw [prLoop] at h
    by_cases hc : prErr (prStep g xs) xs < (g.nodes.length : ℚ) * prTol
    · rw [if_pos hc] at h
      rw [← Option.some.inj h]
      exact prStep_pos hadj hN hx
    · rw [if_neg hc] at h
      exact prLoop_pos hadj hN n (prStep g xs) ys (prStep_nonneg hadj hN hx) h

theorem applyScores_skip :
    ∀ (prs : List (String × ℚ)) (e : String × ConceptNode)
      (cs : List (String × ConceptNode)) (m : ℚ), e.1 ∉ prs.map Prod.fst →
    applyScores (e :: cs) prs m = (applyScores cs prs m).map (fun l => e :: l)
  | [], _, _, _, _ => rfl
  | p :: t, e, cs, m, h => by
    obtain ⟨k, c⟩ := e
    have hne : ¬(k = p.1) := by
      intro hk
      exact h (by simp [hk])
    unfold applyScores
    rw [List.foldlM_cons, List.foldlM_cons]
    show (setImportance ((k, c) :: cs) p.1 (p.2 / m)).bind _ =
      ((setImportance cs p.1 (p.2 / m)).bind _).map _
    rw [setImportance, if_neg hne]
    cases hs : setImportance cs p.1 (p.2 / m) with
    | none => rfl
    | some cs2 =>
      show applyScores ((k, c) :: cs2) t m = (applyScores cs2 t m).map (fun l => (k, c) :: l)
      exact applyScores_skip t (k, c) cs2 m (fun hm => h (List.mem_cons_of_mem _ hm))

theorem applyScores_aligned :
    ∀ (prs : List (String × ℚ)) (cs : List (String × ConceptNode)) (m : ℚ),
    prs.map Prod.fst = cs.map Prod.fst → (cs.map Prod.fst).Nodup →
    applyScores cs prs m = some (List.zipWith
      (fun p c => (c.1, { c.2 with importance_score := p.2 / m })) prs cs)
  | [], cs, m, h, _ => by
    cases cs with
    | nil => rfl
    | cons c t => simp at h
  | p :: t, cs, m, h, hnd => by
    cases cs with
    | nil => simp at h
    | cons c cs2 =>
      obtain ⟨k, cn⟩ := c
      rw [List.map_cons, List.map_cons] at h
      have h1 : p.1 = k := (List.cons.injEq _ _ _ _ ▸ h).1
      have h2 : t.map Prod.fst = cs2.map Prod.fst := (List.cons.injEq _ _ _ _ ▸ h).2
      rw [List.map_cons, List.nodup_cons] at hnd
      obtain ⟨hknot, hnd2⟩ := hnd
      unfold applyScores
      rw [List.foldlM_cons]
      show (setImportance ((k, cn) :: cs2) p.1 (p.2 / m)).bind _ = _
      rw [setImportance, if_pos h1.symm]
      show applyScores ((k, { cn with importance_score := p.2 / m }) :: cs2) t m = _
      rw [applyScores_skip t _ cs2 m (by rw [h2]; simpa using hknot),
        applyScores_aligned t cs2 m h2 hnd2]
      rw [List.zipWith_cons_cons]
      rfl

theorem zipWith_importances (m : ℚ) :
    ∀ (prs : List (String × ℚ)) (cs : List (String × ConceptNode)),
    prs.map Prod.fst = cs.map Prod.fst →
    (List.zipWith (fun p c => (c.1, { c.2 with importance_score := p.2 / m })) prs cs).map
      (fun e => e.2.importance_score) = prs.map (fun p => p.2 / m)
  | [], cs, _ => by cases cs <;> rfl
  | p :: t, cs, h => by
    cases cs with
    | nil => simp at h
    | cons c cs2 =>
      rw [List.map_cons, List.map_cons] at h
      have h2 : t.map Prod.fst = cs2.map Prod.fst := (List.cons.injEq _ _ _ _ ▸ h).2
      rw [List.zipWith_cons_cons, List.map_cons, List.map_cons,
        zipWith_importances m t cs2 h2]

theorem zipWith_uniform_scores (v m : ℚ) :
    ∀ cs : List (String × ConceptNode),
    List.zipWith (fun p c => (c.1, { c.2 with importance_score := p.2 / m }))
      ((cs.map Prod.fst).map (fun u => (u, v))) cs =
      cs.map (fun e => (e.1, { e.2 with importance_score := v / m }))
  | [] => rfl
  | c :: cs2 => by
    rw [List.map_cons, List.map_cons, List.zipWith_cons_cons, List.map_cons,
      zipWith_uniform_scores v m cs2]

theorem importanceGraph_nodes {kg : KnowledgeGraph}
    (hnd : (kg.concepts.map Prod.fst).Nodup)
    (hend : ∀ r ∈ kg.relationships, isScoreEdge r = true →
      r.source ∈ kg.concepts.map Prod.fst ∧ r.target ∈ kg.concepts.map Prod.fst) :
    (importanceGraph kg).nodes = kg.concepts.map Prod.fst := by
  have hgen : ∀ (rs : List Relationship) (g0 : NxGraph),
      g0.nodes = kg.concepts.map Prod.fst →
      (∀ r ∈ rs, r.source ∈ kg.concepts.map Prod.fst ∧
        r.target ∈ kg.concepts.map Prod.fst) →
      (rs.foldl (fun g r => nxAddEdge g r.source r.target r.weight) g0).nodes =
        kg.concepts.map Prod.fst := by
    intro rs
    induction rs with
    | nil => intro g0 h0 _; exact h0
    | cons r t ih =>
      intro g0 h0 hmem
      rw [List.foldl_cons]
      refine ih (nxAddEdge g0 r.source r.target r.weight) ?_
        (fun x hx => hmem x (List.mem_cons_of_mem _ hx))
      show addKey (addKey g0.nodes r.source) r.target = _
      rw [h0, addKey_of_mem (hmem r (by simp)).1, addKey_of_mem (hmem r (by simp)).2]
  refine hgen _ _ ?_ ?_
  · exact pyDictOrder_eq_self hnd
  · intro r hr
    exact hend r (List.mem_of_mem_filter hr) (List.of_mem_filter hr)

/-- With no RELATED or PREREQ edge and at least one concept, pagerank runs on
the edgeless graph: every node is dangling, the vector stays uniform, the
loop converges after one step, and max-normalization writes 1 into every
concept. -/
theorem compute_importance_zero_edges (kg : KnowledgeGraph)
    (hne : kg.concepts ≠ []) (hnd : (kg.concepts.map Prod.fst).Nodup)
    (hedges : kg.relationships.filter isScoreEdge = []) :
    compute_importance_scores kg =
      some { kg with
        concepts := kg.concepts.map (fun e => (e.1, { e.2 with importance_score := 1 })) } := by
  set K := kg.concepts.map Prod.fst with hK
  have hKne : K ≠ [] := by
    rw [hK]
    intro hmap
    rcases List.map_eq_nil_iff.mp hmap with h
    exact hne h
  have hg : importanceGraph kg = ⟨K, []⟩ := by
    unfold importanceGraph
    rw [hedges, List.foldl_nil]
    exact congrArg (fun n => NxGraph.mk n []) (pyDictOrder_eq_self hnd)
  have hN : 0 < K.length := List.length_pos.mpr hKne
  have hNQ : ((K.length : ℚ)) ≠ 0 := by
    exact_mod_cast Nat.pos_iff_ne_zero.mp hN
  set x0 : List (String × ℚ) := K.map (fun u => (u, 1 / (K.length : ℚ))) with hx0
  have hrow : ∀ u, rowSum ⟨K, []⟩ u = 0 := by
    intro u
    unfold rowSum
    have : ∀ v, nxWeight ([] : List ((String × String) × ℚ)) u v = 0 := fun _ => rfl
    rw [List.map_congr_left (fun v _ => this v), sum_map_const, mul_zero]
  have hdangle : prDangleSum ⟨K, []⟩ x0 = 1 := by
    unfold prDangleSum
    rw [List.map_congr_left (fun p _ => if_pos (hrow p.1))]
    rw [hx0, List.map_map]
    rw [show ((fun p : String × ℚ => p.2) ∘ fun u => (u, 1 / (K.length : ℚ))) =
      fun _ => 1 / (K.length : ℚ) from rfl]
    rw [sum_map_const]
    field_simp
  have hinflow : ∀ v, prInflow ⟨K, []⟩ x0 v = 0 := by
    intro v
    unfold prInflow
    rw [List.map_congr_left (fun p _ => if_pos (hrow p.1))]
    rw [sum_map_const, mul_zero]
  have hv : prAlpha * (0 + 1 * (1 / (K.length : ℚ))) +
      (1 - prAlpha) * (1 / (K.length : ℚ)) = 1 / (K.length : ℚ) := by
    rw [prAlpha]; ring
  have hstep : prStep ⟨K, []⟩ x0 = x0 := by
    show x0.map (fun p => (p.1,
        prAlpha * (prInflow ⟨K, []⟩ x0 p.1 + prDangleSum ⟨K, []⟩ x0 *
          (1 / ((⟨K, []⟩ : NxGraph).nodes.length : ℚ))) +
        (1 - prAlpha) * (1 / ((⟨K, []⟩ : NxGraph).nodes.length : ℚ)))) = x0
    have hmap : x0.map (fun p => (p.1,
        prAlpha * (prInflow ⟨K, []⟩ x0 p.1 + prDangleSum ⟨K, []⟩ x0 *
          (1 / ((⟨K, []⟩ : NxGraph).nodes.length : ℚ))) +
        (1 - prAlpha) * (1 / ((⟨K, []⟩ : NxGraph).nodes.length : ℚ)))) =
        x0.map (fun p => (p.1, 1 / (K.length : ℚ))) := by
      refine List.map_congr_left fun p _ => ?_
      rw [hinflow p.1, hdangle]
      show (p.1, prAlpha * (0 + 1 * (1 / (K.length : ℚ))) +
        (1 - prAlpha) * (1 / (K.length : ℚ))) = _
      rw [hv]
    rw [hmap, hx0, List.map_map]
    rfl
  have herr2 : prErr (prStep ⟨K, []⟩ x0) x0 <
      (((⟨K, []⟩ : NxGraph).nodes.length : ℚ)) * prTol := by
    rw [hstep, prErr_self]
    show (0 : ℚ) < (K.length : ℚ) * prTol
    refine mul_pos ?_ (by norm_num [prTol])
    exact_mod_cast hN
  have hloop : prLoop ⟨K, []⟩ 100 x0 = some x0 := by
    rw [prLoop_of_converge (by norm_num) herr2, hstep]
  have hpr : pagerank ⟨K, []⟩ = some x0 := by
    unfold pagerank
    rw [if_neg (by simpa using Nat.pos_iff_ne_zero.mp hN)]
    exact hloop
  have hx0ne : x0 ≠ [] := by
    rw [hx0]
    intro hmap
    exact hKne (List.map_eq_nil_iff.mp hmap)
  have hx0keys : x0.map Prod.fst = K := by
    rw [hx0, List.map_map]
    exact List.map_id K
  have hmax : maxQ (x0.map Prod.snd) = 1 / (K.length : ℚ) := by
    refine maxQ_const ?_ ?_
    · intro hmap
      exact hx0ne (List.map_eq_nil_iff.mp hmap)
    · intro a ha
      rcases List.mem_map.mp ha with ⟨p, hp, rfl⟩
      rw [hx0] at hp
      rcases List.mem_map.mp hp with ⟨u, _, rfl⟩
      rfl
  have happ : applyScores kg.concepts x0 (1 / (K.length : ℚ)) =
      some (kg.concepts.map (fun e => (e.1, { e.2 with importance_score := 1 }))) := by
    rw [applyScores_aligned x0 kg.concepts _ (by rw [hx0keys, hK]) hnd]
    rw [hx0, hK, zipWith_uniform_scores]
    rw [show (1 / ((kg.concepts.map Prod.fst).length : ℚ)) /
      (1 / ((kg.concepts.map Prod.fst).length : ℚ)) = 1 from
      div_self (one_div_ne_zero (by rw [← hK]; exact hNQ))]
  show compute_importance_scores kg = _
  unfold compute_importance_scores
  simp only [hg, hpr]
  rw [if_pos (by simpa using hN)]
  rw [if_neg hx0ne, hmax]
  rw [show maxQ (x0.map Prod.snd) = 1 / (K.length : ℚ) from hmax] at *
  rw [happ]
  rfl

/-- Whenever _compute_importance_scores completes, the scores are each
pagerank value divided by the maximum, so their maximum is exactly 1. -/
theorem compute_importance_max_one (kg : KnowledgeGraph)
    (hne : kg.concepts ≠ []) (hnd : (kg.concepts.map Prod.fst).Nodup)
    (hend : ∀ r ∈ kg.relationships, isScoreEdge r = true →
      r.source ∈ kg.concepts.map Prod.fst ∧ r.target ∈ kg.concepts.map Prod.fst)
    (hw : ∀ r ∈ kg.relationships, 0 ≤ r.weight)
    (kg' : KnowledgeGraph) (h : compute_importance_scores kg = some kg') :
    maxQ (kg'.concepts.map (fun e => e.2.importance_score)) = 1 := by
  set K := kg.concepts.map Prod.fst with hK
  have hKne : K ≠ [] := fun hm => hne (List.map_eq_nil_iff.mp hm)
  have hnodes : (importanceGraph kg).nodes = K := importanceGraph_nodes hnd hend
  have hN : 0 < (importanceGraph kg).nodes.length := by
    rw [hnodes]
    exact List.length_pos.mpr hKne
  have hadj := importanceGraph_adj_nonneg hw
  unfold compute_importance_scores at h
  rw [if_pos hN] at h
  cases hp : pagerank (importanceGraph kg) with
  | none =>
    rw [hp] at h
    simp at h
  | some prs =>
    rw [hp] at h
    dsimp only at h
    have hloop : prLoop (importanceGraph kg) 100
        ((importanceGraph kg).nodes.map
          (fun u => (u, 1 / ((importanceGraph kg).nodes.length : ℚ)))) = some prs := by
      unfold pagerank at hp
      rw [if_neg (Nat.pos_iff_ne_zero.mp hN)] at hp
      exact hp
    have hkeys : prs.map Prod.fst = K := by
      rw [prLoop_keys _ _ _ hloop, List.map_map, ← hnodes]
      exact List.map_id _
    have hprsne : prs ≠ [] := by
      intro hm
      rw [hm] at hkeys
      exact hKne hkeys.symm
    have hx0nonneg : ∀ p ∈ (importanceGraph kg).nodes.map
        (fun u => (u, 1 / ((importanceGraph kg).nodes.length : ℚ))), 0 ≤ p.2 := by
      intro p hp2
      rcases List.mem_map.mp hp2 with ⟨u, _, rfl⟩
      show (0 : ℚ) ≤ 1 / ((importanceGraph kg).nodes.length : ℚ)
      positivity
    have hpos : ∀ p ∈ prs, 0 < p.2 := prLoop_pos hadj hN 100 _ prs hx0nonneg hloop
    have hvalsne : prs.map Prod.snd ≠ [] := fun hm => hprsne (List.map_eq_nil_iff.mp hm)
    have hmpos : 0 < maxQ (prs.map Prod.snd) := by
      rcases List.mem_map.mp (maxQ_mem hvalsne) with ⟨p, hp2, hpm⟩
      exact hpm ▸ hpos p hp2
    rw [if_neg hprsne,
      applyScores_aligned prs kg.concepts (maxQ (prs.map Prod.snd))
        (by rw [hkeys, hK]) hnd] at h
    have hkg' : kg'.concepts = List.zipWith
        (fun p c => (c.1, { c.2 with
          importance_score := p.2 / maxQ (prs.map Prod.snd) })) prs kg.concepts := by
      rcases Option.some.inj (by simpa using h) with rfl
      rfl
    rw [hkg', zipWith_importances _ prs kg.concepts (by rw [hkeys, hK])]
    have hcomp : prs.map (fun p => p.2 / maxQ (prs.map Prod.snd)) =
        (prs.map Prod.snd).map (fun a => a / maxQ (prs.map Prod.snd)) := by
      rw [List.map_map]
      rfl
    rw [hcomp, maxQ_map_div (le_of_lt hmpos), div_self (ne_of_gt hmpos)]

/-- Claim C1 (amended): whenever at least one concept exists, pagerank runs
with or without edges; whenever it completes, the maximum importance over all
concepts is exactly 1, and in the zero-edge case it converges immediately on
the uniform vector, giving every concept importance 1 rather than 0; all
scores stay 0 only when there are no concepts at all. -/
theorem C1_importance_normalization (kg : KnowledgeGraph)
    (hne : kg.concepts ≠ []) (hnd : (kg.concepts.map Prod.fst).Nodup)
    (hend : ∀ r ∈ kg.relationships, isScoreEdge r = true →
      r.source ∈ kg.concepts.map Prod.fst ∧ r.target ∈ kg.concepts.map Prod.fst)
    (hw : ∀ r ∈ kg.relationships, 0 ≤ r.weight) :
    (∀ kg', compute_importance_scores kg = some kg' →
      maxQ (kg'.concepts.map (fun e => e.2.importance_score)) = 1) ∧
    (kg.relationships.filter isScoreEdge = [] →
      compute_importance_scores kg =
        some { kg with
          concepts := kg.concepts.map
            (fun e => (e.1, { e.2 with importance_score := 1 })) }) :=
  ⟨fun kg' h => compute_importance_max_one kg hne hnd hend hw kg' h,
   fun hed => compute_importance_zero_edges kg hne hnd hed⟩

/-- Concrete refutation of claim C1 as frozen: a graph with one concept and
zero RELATED or PREREQ edges gives that concept importance 1, not 0, because
pagerank is skipped only when there are zero nodes, and on the edgeless
one-node graph the normalized score is 1. -/
theorem C1_counterexample :
    compute_importance_scores ⟨[("A", { name := "A" })], []⟩ =
      some ⟨[("A", { name := "A", importance_score := 1 })], []⟩ ∧
    (1 : ℚ) ≠ 0 := by
  constructor
  · exact compute_importance_zero_edges ⟨[("A", { name := "A" })], []⟩
      (by simp) (by simp) rfl
  · norm_num

/-- A concrete two-concept graph with one RELATED edge. -/
def kgWitnessC1 : KnowledgeGraph :=
  ⟨[("A", { name := "A" }), ("B", { name := "B" })],
   [⟨"A", "B", RelationshipType.RELATED, 4/5, 7/10, none⟩]⟩

/-- The two-node run completes: the regular graph keeps the uniform vector,
the loop converges after one iteration and both concepts end at importance 1. -/
theorem kgWitnessC1_scores :
    compute_importance_scores kgWitnessC1 =
      some { kgWitnessC1 with
        concepts := kgWitnessC1.concepts.map
          (fun e => (e.1, { e.2 with importance_score := 1 })) } := by
  have hg : importanceGraph kgWitnessC1 = ⟨["A", "B"], [(("A", "B"), (4:ℚ)/5)]⟩ := rfl
  have hstep : prStep ⟨["A", "B"], [(("A", "B"), (4:ℚ)/5)]⟩
      (List.map (fun u => (u, 1 / ((2:Nat) : ℚ))) ["A", "B"]) =
      List.map (fun u => (u, 1 / ((2:Nat) : ℚ))) ["A", "B"] := by
    simp [prStep, prInflow, prDangleSum, rowSum, nxWeight, sameEdge, prAlpha]
    norm_num
  have herr3 : prErr (prStep ⟨["A", "B"], [(("A", "B"), (4:ℚ)/5)]⟩
      (List.map (fun u => (u, 1 / ((2:Nat) : ℚ))) ["A", "B"]))
      (List.map (fun u => (u, 1 / ((2:Nat) : ℚ))) ["A", "B"]) <
      (((⟨["A", "B"], [(("A", "B"), (4:ℚ)/5)]⟩ : NxGraph).nodes.length : ℚ)) * prTol := by
    rw [hstep, prErr_self]
    norm_num [prTol]
  have hloop : prLoop ⟨["A", "B"], [(("A", "B"), (4:ℚ)/5)]⟩ 100
      (List.map (fun u => (u, 1 / ((2:Nat) : ℚ))) ["A", "B"]) =
      some (List.map (fun u => (u, 1 / ((2:Nat) : ℚ))) ["A", "B"]) := by
    rw [prLoop_of_converge (by norm_num) herr3, hstep]
  have hpr : pagerank ⟨["A", "B"], [(("A", "B"), (4:ℚ)/5)]⟩ =
      some (List.map (fun u => (u, 1 / ((2:Nat) : ℚ))) ["A", "B"]) := by
    unfold pagerank
    rw [if_neg (by norm_num)]
    exact hloop
  show compute_importance_scores kgWitnessC1 = _
  unfold compute_importance_scores
  simp only [hg, hpr]
  rw [if_pos (by norm_num)]
  rw [if_neg (by simp)]
  have happ2 : applyScores kgWitnessC1.concepts
      (List.map (fun u => (u, 1 / ((2:Nat) : ℚ))) ["A", "B"])
      (maxQ ((List.map (fun u => (u, 1 / ((2:Nat) : ℚ))) ["A", "B"]).map Prod.snd)) =
      some (kgWitnessC1.concepts.map
        (fun e => (e.1, { e.2 with importance_score := 1 }))) := by
    have hmax2 : maxQ ((List.map (fun u => (u, 1 / ((2:Nat) : ℚ))) ["A", "B"]).map
        Prod.snd) = 1 / ((2:Nat) : ℚ) := by
      simp [maxQ]
    rw [hmax2]
    simp [applyScores, setImportance, kgWitnessC1]
  rw [happ2]
  rfl

/-- Witness for the amended claim C1: the concrete two-node run completes and
the theorem yields maximum importance 1 on its result. -/
theorem C1_witness :
    compute_importance_scores kgWitnessC1 =
      some { kgWitnessC1 with
        concepts := kgWitnessC1.concepts.map
          (fun e => (e.1, { e.2 with importance_score := 1 })) } ∧
    maxQ (({ kgWitnessC1 with
        concepts := kgWitnessC1.concepts.map
          (fun e => (e.1, { e.2 with importance_score := 1 })) } :
      KnowledgeGraph).concepts.map (fun e => e.2.importance_score)) = 1 :=
  ⟨kgWitnessC1_scores,
   (C1_importance_normalization kgWitnessC1 (by simp [kgWitnessC1]) (by simp [kgWitnessC1])
    (by
      intro r hr _
      rcases List.mem_singleton.mp hr with rfl
      exact ⟨by simp [kgWitnessC1], by simp [kgWitnessC1]⟩)
    (by
      intro r hr
      rcases List.mem_singleton.mp hr with rfl
      norm_num)).1 _ kgWitnessC1_scores⟩

end AKG
